import Mathlib

/-!
# ri-lcp: core-to-integer encoding and its driver

A shallow embedding of `src/ri-lcp.cpp`.

* C strings (`char *`) are lists of characters; a buffer is the list of its
  cells, the string it holds is the run of cells before the first NUL.
* Machine integers are naturals or integers with the wrap written out:
  `uint32_t` values are reduced modulo `2^32`, a conversion to `int` goes
  through `to_int`.
* Undefined behaviour (a read outside `bit_rep`, a write outside the buffer,
  a string without terminator, signed overflow of a counter) is the result
  `none`.
-/

namespace RiLcp

/-! ## Data model -/

/-- The macro `UBLOCK_BIT_SIZE` of the source. -/
def UBLOCK_BIT_SIZE : Nat := 32

/-- The terminator of a C string. -/
def NUL : Char := Char.ofNat 0

/-- Modelled from the spec: `struct core` is declared in `lcptools/core.h`,
which is not among the sources. Following the data model, `bit_size` is the
number of significant bits and `bit_rep` is the sequence of 32-bit unsigned
blocks, most significant block first. Both are read as 32-bit unsigned
fields: the functions below reduce the arithmetic on `bit_size` modulo
`2^32`. The fields `label`, `start` and `end` of the library are never read
by the program and are left out. -/
structure core where
  bit_size : Nat
  bit_rep : List Nat
deriving DecidableEq

/-- Modelled from the spec: `struct lps` is declared in `lcptools/lps.h`,
which is not among the sources. It is the ordered sequence of cores; its
field `size` is the length of the sequence. -/
abbrev lps := List core

/-- Conversion of an unsigned value to `int`: the low 32 bits, read in
two's complement. -/
def to_int (n : Nat) : Int :=
  if n % 2 ^ 32 < 2 ^ 31 then ((n % 2 ^ 32 : Nat) : Int)
  else ((n % 2 ^ 32 : Nat) : Int) - 2 ^ 32

/-- The string held by a buffer: the characters before the first NUL, or
`none` when the buffer holds no NUL (`strlen` would run off its end). -/
def c_str : List Char → Option (List Char)
  | [] => none
  | c :: cs => if c = NUL then some [] else (c_str cs).map (fun s => c :: s)

/-! ## `binary_string_to_int` (lines 12-31) -/

/-- Body of the loop of `binary_string_to_int`: one character is folded into
the 32-bit accumulator. A character other than `0` and `1` leaves it
unchanged. -/
def bsi_step (result : Nat) (c : Char) : Nat :=
  if c = '1' then ((result <<< 1) ||| 1) % 2 ^ 32
  else if c = '0' then (result <<< 1) % 2 ^ 32
  else result

/-- The function `binary_string_to_int`. The argument is the string
`binary_str` points to. `len` is `strlen` stored in an `int`; the loop
`for (i = start_index; i < len; i++)` visits the characters at positions
`start_index .. len - 1` in order. -/
def binary_string_to_int (binary_str : List Char) : Nat :=
  let len : Int := to_int binary_str.length
  let start_index : Int := if len > 32 then len - 32 else 0
  ((binary_str.take len.toNat).drop start_index.toNat).foldl bsi_step 0

/-! ## `core_to_binary_string` (lines 34-67) -/

/-- The expression `(cr->bit_size - 1) / UBLOCK_BIT_SIZE + 1`, computed on
32-bit unsigned values and widened to `uint64_t`. -/
def block_number (cr : core) : Nat :=
  ((cr.bit_size + 2 ^ 32 - 1) % 2 ^ 32) / UBLOCK_BIT_SIZE + 1

/-- The read `cr->bit_rep[block_number - index / UBLOCK_BIT_SIZE - 1]`. When
the subtraction would wrap, or the index is past the blocks of the core, the
read is outside the array. -/
def read_block (cr : core) (block_number index : Nat) : Option Nat :=
  if index / UBLOCK_BIT_SIZE + 1 ≤ block_number then
    cr.bit_rep[block_number - index / UBLOCK_BIT_SIZE - 1]?
  else none

/-- The character written for bit `index` of block `w`:
`((w >> (index % UBLOCK_BIT_SIZE)) & 1) ? 1 : 0` as a digit. -/
def bit_char (w index : Nat) : Char :=
  if (w >>> (index % UBLOCK_BIT_SIZE)) &&& 1 ≠ 0 then '1' else '0'

/-- The write `buffer[i] = c`; outside the buffer it is undefined. -/
def write_char (buffer : List Char) (i : Nat) (c : Char) : Option (List Char) :=
  if i < buffer.length then some (buffer.set i c) else none

/-- The loop `for (index = ...; 0 <= index; index--)` shared by both paths of
`core_to_binary_string`. The first argument is `index + 1`, so that the exit
test `0 <= index` is the case zero. The state is the buffer and the `int`
counter `buffer_index`. -/
def extract_loop (cr : core) (block_number : Nat) :
    Nat → List Char → Nat → Option (List Char × Nat)
  | 0, buffer, buffer_index => some (buffer, buffer_index)
  | index + 1, buffer, buffer_index =>
    match read_block cr block_number index with
    | none => none
    | some w =>
      match write_char buffer buffer_index (bit_char w index) with
      | none => none
      | some buffer =>
        if buffer_index + 1 < 2 ^ 31 then
          extract_loop cr block_number index buffer (buffer_index + 1)
        else none

/-- The end of both paths: `buffer[buffer_index] = 0; return buffer_index;`. -/
def terminate (st : List Char × Nat) : Option (Int × List Char) :=
  match write_char st.1 st.2 NUL with
  | none => none
  | some buffer => some ((st.2 : Int), buffer)

/-- The function `core_to_binary_string`: the returned `int` and the buffer
after the call. `buffer` is the memory the caller passes, `buffer_size` the
size the caller claims for it. -/
def core_to_binary_string (cr : core) (buffer : List Char) (buffer_size : Nat) :
    Option (Int × List Char) :=
  if buffer_size < (cr.bit_size + 1) % 2 ^ 32 then
    if 33 ≤ buffer_size ∧ 32 < cr.bit_size then
      (extract_loop cr (block_number cr) 32 buffer 0).bind terminate
    else some (-1, buffer)
  else
    (extract_loop cr (block_number cr)
      (to_int ((cr.bit_size + 2 ^ 32 - 1) % 2 ^ 32) + 1).toNat buffer 0).bind terminate

/-- The integer the encoder produces for one core: `binary_string_to_int`
applied to the string `core_to_binary_string` leaves in the 33-byte scratch
buffer (lines 92-101). `none` when the core is skipped or the behaviour is
undefined. -/
def encoded_integer (cr : core) (binary_buffer : List Char) : Option Nat :=
  match core_to_binary_string cr binary_buffer 33 with
  | none => none
  | some (binary_len, buffer) =>
    if binary_len < 0 then none else (c_str buffer).map binary_string_to_int

/-! ## `convert_lps_cores_to_integers_file` (lines 70-112) -/

/-- The world outside the program: the C library and the LCP library.
* `atoi` is the library function of that name;
* `file path` is the content `fread` delivers when `fopen(path, "r")`
  succeeds, `none` when it fails;
* `writable path` tells whether `fopen(path, "w")` succeeds;
* `malloc_ok k` tells whether the `k`-th call of `malloc` in the run
  succeeds (0: `file_content`, 1: `cleaned_str`, 2: `binary_buffer`);
* `garbage` is the content of freshly allocated memory;
* `build symbols level` is the sequence of cores left by `init_lps` followed
  by `lps_deepen`. -/
structure Env where
  atoi : List Char → Int
  file : List Char → Option (List Char)
  writable : List Char → Bool
  malloc_ok : Nat → Bool
  garbage : Nat → Char
  build : List Char → Int → lps

/-- Memory returned by a successful `malloc(n)`: `n` cells of unspecified
content. -/
def fresh (env : Env) (n : Nat) : List Char := (List.range n).map env.garbage

/-- The conversion `%u` of `fprintf`. -/
def fmt_u (n : Nat) : List Char := Nat.toDigits 10 n

/-- The conversion `%d` of `snprintf`. -/
def fmt_d (n : Int) : List Char :=
  if n < 0 then '-' :: Nat.toDigits 10 n.natAbs else Nat.toDigits 10 n.toNat

/-- What a call of `convert_lps_cores_to_integers_file` leaves behind: the
returned code, whether the output file was opened (created), the bytes
written to it, and the indices of the cores for which the warning was
printed. -/
structure convert_result where
  ret : Int
  opened : Bool
  written : List Char
  skipped : List Nat
deriving DecidableEq

/-- The loop over the cores (lines 88-105). The state is the index `i`, the
scratch buffer, the bytes written so far and the warnings printed so far. -/
def convert_loop : List core → Nat → List Char → List Char → List Nat →
    Option (List Char × List Nat)
  | [], _, _, written, skipped => some (written, skipped)
  | cr :: rest, i, binary_buffer, written, skipped =>
    match core_to_binary_string cr binary_buffer 33 with
    | none => none
    | some (binary_len, binary_buffer) =>
      if binary_len < 0 then
        convert_loop rest (i + 1) binary_buffer written (skipped ++ [i])
      else
        match c_str binary_buffer with
        | none => none
        | some binary_str =>
          convert_loop rest (i + 1) binary_buffer
            (written ++ (fmt_u (binary_string_to_int binary_str) ++ [' '])) skipped

/-- The function `convert_lps_cores_to_integers_file`. -/
def convert_lps_cores_to_integers_file (env : Env) (lps_ptr : lps)
    (filename : List Char) : Option convert_result :=
  if !env.writable filename then some ⟨1, false, [], []⟩
  else if !env.malloc_ok 2 then some ⟨1, true, [], []⟩
  else
    match convert_loop lps_ptr 0 (fresh env 33) [] [] with
    | none => none
    | some (written, skipped) => some ⟨0, true, written, skipped⟩

/-! ## `main` (lines 114-219) -/

/-- The loop over the arguments (lines 120-146), on the arguments that are
left. The state is `input_file` (`none` for `NULL`) and `deepen_level`. The
result `none` is `return 1` from inside the loop. -/
def parse_args (atoi : List Char → Int) :
    List (List Char) → Option (List Char) → Int → Option (Option (List Char) × Int)
  | [], input_file, deepen_level => some (input_file, deepen_level)
  | a :: rest, input_file, deepen_level =>
    if a = ['-', 'i'] then
      match rest with
      | v :: rest => parse_args atoi rest (some v) deepen_level
      | [] => none
    else if a = ['-', 'd'] then
      match rest with
      | v :: rest =>
        if atoi v < 0 then none else parse_args atoi rest input_file (atoi v)
      | [] => none
    else none

/-- The function `isspace` in the C locale. -/
def isspace (c : Char) : Bool :=
  c = ' ' || (9 ≤ c.toNat && c.toNat ≤ 13)

/-- The loop that removes the whitespace (lines 190-194). The first argument
is `bytes_read - i`. -/
def strip_loop (file_content : List Char) :
    Nat → Nat → List Char → Nat → Option (List Char × Nat)
  | 0, _, cleaned_str, cleaned_len => some (cleaned_str, cleaned_len)
  | n + 1, i, cleaned_str, cleaned_len =>
    match file_content[i]? with
    | none => none
    | some c =>
      if !isspace c then
        match write_char cleaned_str cleaned_len c with
        | none => none
        | some cleaned_str =>
          strip_loop file_content n (i + 1) cleaned_str (cleaned_len + 1)
      else strip_loop file_content n (i + 1) cleaned_str cleaned_len

/-- Lines 189-195: the loop, from `cleaned_len = 0`, then the terminator.
The result is the buffer `cleaned_str` and `cleaned_len`. -/
def normalize (file_content : List Char) (bytes_read : Nat) (cleaned_str : List Char) :
    Option (List Char × Nat) :=
  match strip_loop file_content bytes_read 0 cleaned_str 0 with
  | none => none
  | some (cleaned_str, cleaned_len) =>
    match write_char cleaned_str cleaned_len NUL with
    | none => none
    | some cleaned_str => some (cleaned_str, cleaned_len)

/-- Lines 208-209: `snprintf` into `char output_filename[512]` writes at most
511 characters of the formatted text. -/
def output_filename (input_file : List Char) (deepen_level : Int) : List Char :=
  (input_file ++ ("-level".toList ++ (fmt_d deepen_level ++ ".txt".toList))).take 511

/-- What the run does to the file system. -/
inductive Event where
  | open_input (path : List Char) (ok : Bool)
  | open_output (path : List Char) (ok : Bool)
  | output (bytes : List Char)
deriving DecidableEq

/-- The exit code of `main` and the file operations of the run, in order. -/
structure run_result where
  exit_code : Int
  trace : List Event
deriving DecidableEq

/-- Lines 155-218 of `main`: the run once the arguments are accepted. -/
def run (env : Env) (input_file : List Char) (deepen_level : Int) : Option run_result :=
  match env.file input_file with
  | none => some ⟨1, [Event.open_input input_file false]⟩
  | some bytes =>
    let bytes_read := bytes.length
    if !env.malloc_ok 0 then some ⟨1, [Event.open_input input_file true]⟩
    else
      let file_content := bytes ++ [NUL]
      if !env.malloc_ok 1 then some ⟨1, [Event.open_input input_file true]⟩
      else
        match normalize file_content bytes_read (fresh env (bytes_read + 1)) with
        | none => none
        | some (cleaned_str, cleaned_len) =>
          let lcp_str := env.build (cleaned_str.take cleaned_len) deepen_level
          let filename := output_filename input_file deepen_level
          match convert_lps_cores_to_integers_file env lcp_str filename with
          | none => none
          | some r =>
            some ⟨0, [Event.open_input input_file true, Event.open_output filename r.opened]
                      ++ (if r.opened then [Event.output r.written] else [])⟩

/-- The function `main`; `argv[0]` is the name of the program. -/
def main (env : Env) (argv : List (List Char)) : Option run_result :=
  match parse_args env.atoi (argv.drop 1) none 1 with
  | none => some ⟨1, []⟩
  | some (none, _) => some ⟨1, []⟩
  | some (some input_file, deepen_level) => run env input_file deepen_level

/-! ## Definitions used to state the properties -/

/-- The value of a binary numeral, most significant digit first. -/
def binary_value (s : List Char) : Nat :=
  s.foldl (fun acc c => 2 * acc + (if c = '1' then 1 else 0)) 0

/-- A string of binary digits. -/
def is_binary (s : List Char) : Prop := ∀ c ∈ s, c = '0' ∨ c = '1'

instance (s : List Char) : Decidable (is_binary s) := by
  unfold is_binary
  infer_instance

/-- The characters the extraction loop writes for the bit indices `n - 1`
down to `0`, when bit `index` is written as `g index`. -/
def bits_of (g : Nat → Char) : Nat → List Char
  | 0 => []
  | n + 1 => g n :: bits_of g n

/-- The last block of a core (0 when it has none). -/
def last_block (cr : core) : Nat := cr.bit_rep.getD (cr.bit_rep.length - 1) 0

/-- The characters the encoder leaves in the scratch buffer for a core. -/
def core_bits (cr : core) : List Char :=
  bits_of (fun index => bit_char (last_block cr) index) (min cr.bit_size 32)

/-- The bit indexing of the data model: bit `index` of a core resides in
`blocks[len(blocks) - 1 - index / 32]` at position `index % 32`. -/
def core_bit (cr : core) (index : Nat) : Nat :=
  (cr.bit_rep.getD (cr.bit_rep.length - 1 - index / 32) 0 >>> (index % 32)) &&& 1

/-- The loop of the direct formulation: for `index` down to 0,
`result := (result << 1) | bit(index)` on 32 bits. The first argument is
`index + 1`. -/
def direct_loop (cr : core) : Nat → Nat → Nat
  | 0, result => result
  | index + 1, result => direct_loop cr index (((result <<< 1) ||| core_bit cr index) % 2 ^ 32)

/-- The direct bit-extraction formulation of the encoder, as the
specification words it: starting from 0, for index = min(bit_size, 32) - 1
down to 0, `result := (result << 1) | bit(index)`. -/
def direct_encode (cr : core) : Nat := direct_loop cr (min cr.bit_size 32) 0

/-- Leading decimal digits of a string, folded into `acc`. -/
def atoi_digits : List Char → Int → Int
  | [], acc => acc
  | c :: cs, acc =>
    if 48 ≤ c.toNat ∧ c.toNat ≤ 57 then atoi_digits cs (10 * acc + ((c.toNat : Int) - 48)) else acc

/-- A model of `atoi` on values within the range of `int`: leading
whitespace, an optional sign, then decimal digits; 0 when there is no
digit. -/
def atoi_model (s : List Char) : Int :=
  match s.dropWhile (fun c => isspace c) with
  | '-' :: cs => - atoi_digits cs 0
  | '+' :: cs => atoi_digits cs 0
  | cs => atoi_digits cs 0

/-- An environment for running the program on concrete inputs: every file
opens for reading with the given content, a path can be opened for writing
when `writable` says so, the `k`-th allocation succeeds when `malloc_ok k`
says so, and the LCP library returns the given cores. -/
def sample_env (content : List Char) (writable : List Char → Bool) (malloc_ok : Nat → Bool)
    (cores : lps) : Env :=
  { atoi := atoi_model
    file := fun _ => some content
    writable := writable
    malloc_ok := malloc_ok
    garbage := fun _ => 'x'
    build := fun _ _ => cores }

/-- The integer the encoder computes for a core, in closed form: the last
block reduced modulo `2 ^ min bit_size 32`, and 0 for the bit size
`2^32 - 1`, where `bit_size + 1` wraps to 0 and no bit is extracted. -/
def encoded_value (cr : core) : Nat :=
  if cr.bit_size + 1 < 2 ^ 32 then last_block cr % 2 ^ (min cr.bit_size 32) else 0

/-- The whitespace characters of the C locale: space, `\t`, `\n`, `\v`,
`\f`, `\r`. -/
def c_whitespace : List Char :=
  [Char.ofNat 32, Char.ofNat 9, Char.ofNat 10, Char.ofNat 11, Char.ofNat 12, Char.ofNat 13]

/-- An option of the command line, as the usage text gives them:
`-i <input_file>` or `-d <deepen_level>`. -/
inductive cli_option where
  | input (path : List Char)
  | deepen (level : List Char)

/-- The two arguments an option takes on the command line. -/
def cli_option.args : cli_option → List (List Char)
  | .input path => [['-', 'i'], path]
  | .deepen level => [['-', 'd'], level]

/-- An option the scan accepts: any `-i`, and a `-d` whose value parses to
a non-negative integer. -/
def cli_option.accepted (atoi : List Char → Int) : cli_option → Prop
  | .input _ => True
  | .deepen level => 0 ≤ atoi level

/-- Whether the option is `-i`. -/
def cli_option.is_input : cli_option → Bool
  | .input _ => true
  | .deepen _ => false

/-- The text of the output path as the specification gives it: `input_file`,
`-level`, the decimal digits of the level, `.txt`. -/
def path_text (input_file : List Char) (deepen_level : Int) : List Char :=
  input_file ++ "-level".toList ++ Nat.toDigits 10 deepen_level.toNat ++ ".txt".toList

/-- The string of the bits `n - 1` down to `0` of a core, most significant
bit first, by the bit indexing of the data model. -/
def bit_string (cr : core) (n : Nat) : List Char :=
  (List.range n).reverse.map (fun index => if core_bit cr index = 1 then '1' else '0')

/-- The number of tokens in the bytes of the output file: every token ends
with the one space it contains. -/
def token_count (bytes : List Char) : Nat := bytes.count ' '

/-! ## Theorems -/

/-! ### Binary numerals and `binary_string_to_int` -/

theorem foldl_numeral (s : List Char) (r : Nat) :
    s.foldl (fun acc c => 2 * acc + (if c = '1' then 1 else 0)) r
      = r * 2 ^ s.length + binary_value s := by
  induction s generalizing r with
  | nil => simp [binary_value]
  | cons c s ih =>
    simp only [List.foldl_cons, List.length_cons, binary_value]
    rw [ih, ih (2 * 0 + _)]
    ring

theorem binary_value_cons (c : Char) (s : List Char) :
    binary_value (c :: s) = (if c = '1' then 1 else 0) * 2 ^ s.length + binary_value s := by
  simp only [binary_value, List.foldl_cons]
  rw [foldl_numeral]
  simp [binary_value]

theorem binary_value_append (a b : List Char) :
    binary_value (a ++ b) = binary_value a * 2 ^ b.length + binary_value b := by
  simp only [binary_value, List.foldl_append]
  rw [foldl_numeral]
  simp [binary_value]

theorem binary_value_lt (s : List Char) : binary_value s < 2 ^ s.length := by
  induction s with
  | nil => simp [binary_value]
  | cons c s ih =>
    rw [binary_value_cons, List.length_cons, pow_succ]
    split <;> omega

theorem shl_or_one (r : Nat) : (r <<< 1) ||| 1 = 2 * r + 1 := by
  have h := Nat.mul_add_lt_is_or (by decide : 1 < 2 ^ 1) r
  rw [Nat.shiftLeft_eq, Nat.mul_comm, ← h]

theorem bsi_step_binary (r : Nat) (c : Char) (hc : c = '0' ∨ c = '1') :
    bsi_step r c = (2 * r + (if c = '1' then 1 else 0)) % 2 ^ 32 := by
  rcases hc with rfl | rfl
  · simp [bsi_step, Nat.shiftLeft_eq, Nat.mul_comm]
  · simp [bsi_step, shl_or_one]

theorem foldl_bsi_step (s : List Char) (hs : is_binary s) (r : Nat) (hr : r < 2 ^ 32) :
    s.foldl bsi_step r = (r * 2 ^ s.length + binary_value s) % 2 ^ 32 := by
  induction s generalizing r with
  | nil =>
    have h0 : binary_value [] = 0 := rfl
    simp only [List.foldl_nil, List.length_nil, h0]
    omega
  | cons c s ih =>
    have hc : c = '0' ∨ c = '1' := hs c (List.mem_cons_self _ _)
    have hs2 : is_binary s := fun d hd => hs d (List.mem_cons_of_mem _ hd)
    rw [List.foldl_cons, ih hs2 _ (by rw [bsi_step_binary r c hc]; exact Nat.mod_lt _ (by positivity)),
      bsi_step_binary r c hc, binary_value_cons, List.length_cons]
    have h1 : ((2 * r + (if c = '1' then 1 else 0)) % 2 ^ 32 * 2 ^ s.length + binary_value s) % 2 ^ 32
        = ((2 * r + (if c = '1' then 1 else 0)) * 2 ^ s.length + binary_value s) % 2 ^ 32 := by
      apply Nat.ModEq.add_right
      apply Nat.ModEq.mul_right
      exact Nat.mod_modEq _ _
    rw [h1]
    congr 1
    ring

theorem to_int_small (n : Nat) (h : n < 2 ^ 31) : to_int n = (n : Int) := by
  have h1 : n % 2 ^ 32 = n := Nat.mod_eq_of_lt (by omega)
  unfold to_int
  rw [h1, if_pos h]

/-- The value `binary_string_to_int` returns on a string of binary digits
shorter than `2^31`: the numeral value of its last 32 characters. -/
theorem binary_string_to_int_eq (s : List Char) (hs : is_binary s) (hlen : s.length < 2 ^ 31) :
    binary_string_to_int s = binary_value (s.drop (s.length - 32)) := by
  have hd : is_binary (s.drop (s.length - 32)) := fun c hc => hs c (List.mem_of_mem_drop hc)
  have hl : (s.drop (s.length - 32)).length ≤ 32 := by simp; omega
  have hv : binary_value (s.drop (s.length - 32)) < 2 ^ 32 :=
    lt_of_lt_of_le (binary_value_lt _) (Nat.pow_le_pow_right (by decide) hl)
  unfold binary_string_to_int
  simp only [to_int_small _ hlen]
  have ht : s.take (Int.toNat (s.length : Int)) = s := by simp
  rw [ht]
  by_cases h32 : 32 < s.length
  · have : ((s.length : Int) > 32) := by omega
    simp only [this, if_true]
    have : Int.toNat ((s.length : Int) - 32) = s.length - 32 := by omega
    rw [this, foldl_bsi_step _ hd 0 (by decide), Nat.zero_mul, Nat.zero_add,
      Nat.mod_eq_of_lt hv]
  · have : ¬ ((s.length : Int) > 32) := by omega
    simp only [this, if_false]
    have h0 : s.length - 32 = 0 := by omega
    rw [h0] at hd hv ⊢
    simp only [Int.toNat_zero, List.drop_zero] at hd hv ⊢
    rw [foldl_bsi_step _ hd 0 (by decide), Nat.zero_mul, Nat.zero_add,
      Nat.mod_eq_of_lt hv]

theorem binary_value_mod (s : List Char) :
    binary_value s % 2 ^ 32 = binary_value (s.drop (s.length - 32)) := by
  have hl : (s.drop (s.length - 32)).length ≤ 32 := by simp; omega
  have hv : binary_value (s.drop (s.length - 32)) < 2 ^ 32 :=
    lt_of_lt_of_le (binary_value_lt _) (Nat.pow_le_pow_right (by decide) hl)
  by_cases h32 : 32 < s.length
  · conv_lhs => rw [← List.take_append_drop (s.length - 32) s]
    rw [binary_value_append]
    have : (s.drop (s.length - 32)).length = 32 := by simp; omega
    rw [this, Nat.mul_add_mod_of_lt hv] 
  · have h0 : s.length - 32 = 0 := by omega
    rw [h0] at hv ⊢
    simp only [List.drop_zero] at hv ⊢
    exact Nat.mod_eq_of_lt hv

/-! ### The extraction loop of `core_to_binary_string` -/

theorem bits_of_length (g : Nat → Char) (n : Nat) : (bits_of g n).length = n := by
  induction n with
  | zero => rfl
  | succ n ih => simp [bits_of, ih]

theorem set_at_length (pre : List Char) (x c : Char) (rest : List Char) :
    (pre ++ x :: rest).set pre.length c = pre ++ c :: rest := by
  induction pre with
  | nil => rfl
  | cons a pre ih => simp [ih]

theorem write_char_at (pre : List Char) (x c : Char) (rest : List Char) :
    write_char (pre ++ x :: rest) pre.length c = some (pre ++ c :: rest) := by
  unfold write_char
  rw [if_pos (by simp), set_at_length]

theorem extract_loop_eq (cr : core) (bn : Nat) (f : Nat → Nat) (n : Nat) :
    ∀ (pre mid post : List Char), mid.length = n → pre.length + n < 2 ^ 31 →
      (∀ index, index < n → read_block cr bn index = some (f index)) →
      extract_loop cr bn n (pre ++ mid ++ post) pre.length
        = some (pre ++ bits_of (fun index => bit_char (f index) index) n ++ post,
                pre.length + n) := by
  induction n with
  | zero =>
    intro pre mid post hm _ _
    have : mid = [] := List.length_eq_zero.mp hm
    simp [extract_loop, bits_of, this]
  | succ n ih =>
    intro pre mid post hm hlt hread
    match mid, hm with
    | x :: mid, hm =>
      have hm2 : mid.length = n := by simpa using hm
      have hw : write_char (pre ++ x :: mid ++ post) pre.length (bit_char (f n) n)
          = some (pre ++ bit_char (f n) n :: (mid ++ post)) := by
        have := write_char_at pre x (bit_char (f n) n) (mid ++ post)
        simpa using this
      have hlt2 : pre.length + 1 < 2 ^ 31 := by omega
      simp only [extract_loop, hread n (Nat.lt_succ_self n), hw, if_pos hlt2]
      have h2 := ih (pre ++ [bit_char (f n) n]) mid post hm2
        (by simp; omega) (fun index hi => hread index (Nat.lt_succ_of_lt hi))
      simp only [List.length_append, List.length_singleton, List.append_assoc,
        List.singleton_append, List.cons_append, List.nil_append] at h2
      rw [h2]
      simp [bits_of, Nat.add_assoc, Nat.add_comm 1 n]

theorem bit_char_binary (w index : Nat) : bit_char w index = '0' ∨ bit_char w index = '1' := by
  unfold bit_char
  split <;> simp

theorem bits_of_binary (f : Nat → Nat) (n : Nat) :
    is_binary (bits_of (fun index => bit_char (f index) index) n) := by
  induction n with
  | zero => intro c hc; simp [bits_of] at hc
  | succ n ih =>
    intro c hc
    simp only [bits_of, List.mem_cons] at hc
    rcases hc with rfl | hc
    · exact bit_char_binary _ _
    · exact ih c hc

theorem c_str_append (s : List Char) (hs : is_binary s) (t : List Char) :
    c_str (s ++ NUL :: t) = some s := by
  induction s with
  | nil => simp [c_str]
  | cons c s ih =>
    have hc : c ≠ NUL := by
      rcases hs c (List.mem_cons_self _ _) with h | h <;> rw [h] <;> decide
    simp [c_str, hc, ih (fun d hd => hs d (List.mem_cons_of_mem _ hd))]

theorem bit_char_one (w index : Nat) (h : index < 32) :
    (if bit_char w index = '1' then 1 else 0) = w / 2 ^ index % 2 := by
  unfold bit_char UBLOCK_BIT_SIZE
  rw [Nat.mod_eq_of_lt h, Nat.and_one_is_mod, Nat.shiftRight_eq_div_pow]
  rcases Nat.mod_two_eq_zero_or_one (w / 2 ^ index) with h0 | h1
  · simp [h0]
  · simp [h1]

theorem binary_value_bits_of (w : Nat) (n : Nat) (hn : n ≤ 32) :
    binary_value (bits_of (fun index => bit_char w index) n) = w % 2 ^ n := by
  induction n with
  | zero => simp [bits_of, binary_value, Nat.mod_one]
  | succ n ih =>
    rw [bits_of, binary_value_cons, bits_of_length, ih (by omega), bit_char_one w n (by omega),
      Nat.mod_pow_succ]
    ring

theorem extract_then_terminate (cr : core) (bn : Nat) (w : Nat) (n : Nat) (buffer : List Char)
    (hn : n < buffer.length) (hn2 : n < 2 ^ 31)
    (hread : ∀ index, index < n → read_block cr bn index = some w) :
    ∃ post, (extract_loop cr bn n buffer 0).bind terminate
      = some ((n : Int), bits_of (fun index => bit_char w index) n ++ NUL :: post)
      ∧ (bits_of (fun index => bit_char w index) n ++ NUL :: post).length = buffer.length := by
  have hsplit : buffer = [] ++ buffer.take n ++ buffer.drop n := by simp
  have hmid : (buffer.take n).length = n := by simp; omega
  have h := extract_loop_eq cr bn (fun _ => w) n [] (buffer.take n) (buffer.drop n) hmid
    (by simpa using hn2) hread
  rw [← hsplit] at h
  simp only [List.length_nil, Nat.zero_add, List.nil_append] at h
  have hpost : (buffer.drop n).length = buffer.length - n := by simp
  match hd : buffer.drop n, hpost with
  | [], hp => simp at hp; omega
  | x :: post, hp =>
    refine ⟨post, ?_, ?_⟩
    · rw [h, hd]
      simp only [Option.some_bind, terminate]
      have hw := write_char_at (bits_of (fun index => bit_char w index) n) x NUL post
      rw [bits_of_length] at hw
      rw [hw]
    · simp only [List.length_append, bits_of_length, List.length_cons] at hp ⊢
      omega

theorem to_int_pred_zero : to_int ((0 + 2 ^ 32 - 1) % 2 ^ 32) = -1 := by decide

theorem read_last (cr : core) (hsz : 1 ≤ cr.bit_size) (hsz2 : cr.bit_size + 1 < 2 ^ 32)
    (hlen : cr.bit_rep.length = (cr.bit_size + 31) / 32) (index : Nat) (hi : index < 32) :
    read_block cr (block_number cr) index = some (last_block cr) := by
  have hbn : block_number cr = cr.bit_rep.length := by
    unfold block_number UBLOCK_BIT_SIZE
    rw [hlen]
    omega
  have hdiv : index / 32 = 0 := by omega
  have hpos : 1 ≤ cr.bit_rep.length := by omega
  unfold read_block last_block UBLOCK_BIT_SIZE
  rw [hbn, hdiv, if_pos (by omega), Nat.sub_zero, List.getD_eq_getElem?_getD]
  have : cr.bit_rep.length - 1 < cr.bit_rep.length := by omega
  simp [List.getElem?_eq_getElem this]

/-- With the 33-byte scratch buffer, `core_to_binary_string` returns
`min bit_size 32` and leaves the bits `min bit_size 32 - 1 .. 0` of the last
block, terminated, in the buffer. -/
theorem core_to_binary_string_33 (cr : core) (buffer : List Char) (hb : buffer.length = 33)
    (hsz2 : cr.bit_size + 1 < 2 ^ 32)
    (hlen : cr.bit_rep.length = (cr.bit_size + 31) / 32) :
    ∃ post, core_to_binary_string cr buffer 33
        = some (((min cr.bit_size 32 : Nat) : Int), core_bits cr ++ NUL :: post)
      ∧ (core_bits cr ++ NUL :: post).length = 33 := by
  unfold core_to_binary_string core_bits
  have hmod : (cr.bit_size + 1) % 2 ^ 32 = cr.bit_size + 1 := Nat.mod_eq_of_lt hsz2
  rw [hmod]
  by_cases h32 : 32 < cr.bit_size
  · rw [if_pos (by omega), if_pos ⟨by decide, h32⟩]
    have hmin : min cr.bit_size 32 = 32 := by omega
    rw [hmin]
    obtain ⟨post, h1, h2⟩ := extract_then_terminate cr (block_number cr) (last_block cr) 32 buffer
      (by omega) (by decide) (fun index hi => read_last cr (by omega) hsz2 hlen index hi)
    exact ⟨post, h1, by rw [h2, hb]⟩
  · rw [if_neg (by omega)]
    have hmin : min cr.bit_size 32 = cr.bit_size := by omega
    rw [hmin]
    have hcount : (to_int ((cr.bit_size + 2 ^ 32 - 1) % 2 ^ 32) + 1).toNat = cr.bit_size := by
      by_cases h0 : cr.bit_size = 0
      · rw [h0, to_int_pred_zero]; rfl
      · have : (cr.bit_size + 2 ^ 32 - 1) % 2 ^ 32 = cr.bit_size - 1 := by omega
        rw [this, to_int_small _ (by omega)]
        omega
    rw [hcount]
    obtain ⟨post, h1, h2⟩ := extract_then_terminate cr (block_number cr) (last_block cr)
      cr.bit_size buffer (by omega) (by omega)
      (fun index hi => read_last cr (by omega) hsz2 hlen index (by omega))
    exact ⟨post, h1, by rw [h2, hb]⟩

theorem core_bits_binary (cr : core) : is_binary (core_bits cr) := bits_of_binary _ _

theorem binary_string_to_int_core_bits (cr : core) :
    binary_string_to_int (core_bits cr) = last_block cr % 2 ^ (min cr.bit_size 32) := by
  have hl : (core_bits cr).length = min cr.bit_size 32 := bits_of_length _ _
  rw [binary_string_to_int_eq _ (core_bits_binary cr) (by rw [hl]; omega)]
  have : (core_bits cr).length - 32 = 0 := by rw [hl]; omega
  rw [this, List.drop_zero]
  exact binary_value_bits_of _ _ (by omega)

/-- The integer the encoder produces: the last block reduced modulo
`2 ^ min bit_size 32`. -/
theorem encoded_integer_eq (cr : core) (buffer : List Char) (hb : buffer.length = 33)
    (hsz2 : cr.bit_size + 1 < 2 ^ 32)
    (hlen : cr.bit_rep.length = (cr.bit_size + 31) / 32) :
    encoded_integer cr buffer = some (last_block cr % 2 ^ (min cr.bit_size 32)) := by
  obtain ⟨post, h1, _⟩ := core_to_binary_string_33 cr buffer hb hsz2 hlen
  unfold encoded_integer
  rw [h1]
  simp only
  rw [if_neg (by omega), c_str_append _ (core_bits_binary cr), Option.map_some',
    binary_string_to_int_core_bits]

/-! ### The encoded integer -/

theorem bit_eq_div (x i : Nat) : (x >>> i) &&& 1 = x / 2 ^ i % 2 := by
  rw [Nat.and_one_is_mod, Nat.shiftRight_eq_div_pow]

theorem bit_eq_testBit (x i : Nat) : (x >>> i) &&& 1 = (x.testBit i).toNat := by
  rw [bit_eq_div, Nat.toNat_testBit]

theorem core_bit_low (cr : core) (index : Nat) (hi : index < 32) :
    core_bit cr index = last_block cr / 2 ^ index % 2 := by
  unfold core_bit last_block
  have hdiv : index / 32 = 0 := by omega
  rw [hdiv, Nat.sub_zero, Nat.mod_eq_of_lt hi, bit_eq_div]

theorem shl_or_bit (r b : Nat) (hb : b < 2) : (r <<< 1) ||| b = 2 * r + b := by
  have h := Nat.mul_add_lt_is_or (by simpa using hb : b < 2 ^ 1) r
  rw [Nat.shiftLeft_eq, Nat.mul_comm, ← h]

theorem direct_loop_eq (cr : core) (n : Nat) (hn : n ≤ 32) (r : Nat) (hr : r < 2 ^ 32) :
    direct_loop cr n r = (r * 2 ^ n + last_block cr % 2 ^ n) % 2 ^ 32 := by
  induction n generalizing r with
  | zero =>
    simp only [direct_loop, pow_zero, Nat.mod_one, Nat.mul_one, Nat.add_zero]
    exact (Nat.mod_eq_of_lt hr).symm
  | succ n ih =>
    have hbit := core_bit_low cr n (by omega)
    have hstep : ((r <<< 1) ||| core_bit cr n) % 2 ^ 32
        = (2 * r + last_block cr / 2 ^ n % 2) % 2 ^ 32 := by
      rw [shl_or_bit _ _ (by rw [hbit]; exact Nat.mod_lt _ (by decide)), hbit]
    have h1 : ((2 * r + last_block cr / 2 ^ n % 2) % 2 ^ 32 * 2 ^ n + last_block cr % 2 ^ n) % 2 ^ 32
        = ((2 * r + last_block cr / 2 ^ n % 2) * 2 ^ n + last_block cr % 2 ^ n) % 2 ^ 32 := by
      apply Nat.ModEq.add_right
      apply Nat.ModEq.mul_right
      exact Nat.mod_modEq _ _
    have hsucc : last_block cr % 2 ^ (n + 1)
        = last_block cr % 2 ^ n + 2 ^ n * (last_block cr / 2 ^ n % 2) := Nat.mod_pow_succ
    simp only [direct_loop, hstep]
    rw [ih (by omega) _ (Nat.mod_lt _ (by positivity)), h1, hsucc]
    congr 1
    ring

theorem direct_encode_eq (cr : core) :
    direct_encode cr = last_block cr % 2 ^ (min cr.bit_size 32) := by
  unfold direct_encode
  have hlt : last_block cr % 2 ^ (min cr.bit_size 32) < 2 ^ 32 :=
    lt_of_lt_of_le (Nat.mod_lt _ (by positivity)) (Nat.pow_le_pow_right (by decide) (by omega))
  rw [direct_loop_eq cr _ (by omega) 0 (by decide), Nat.zero_mul, Nat.zero_add,
    Nat.mod_eq_of_lt hlt]

theorem getLast_eq_last_block (cr : core) (h : cr.bit_rep ≠ []) :
    cr.bit_rep.getLast? = some (last_block cr) := by
  unfold last_block
  rw [List.getLast?_eq_getElem?, List.getD_eq_getElem?_getD]
  have hpos : cr.bit_rep.length - 1 < cr.bit_rep.length := by
    have := List.length_pos.mpr h
    omega
  simp [List.getElem?_eq_getElem hpos]

theorem last_block_lt (cr : core) (hw : ∀ w ∈ cr.bit_rep, w < 2 ^ 32) : last_block cr < 2 ^ 32 := by
  unfold last_block
  rw [List.getD_eq_getElem?_getD]
  by_cases hpos : cr.bit_rep.length - 1 < cr.bit_rep.length
  · rw [List.getElem?_eq_getElem hpos]
    exact hw _ (List.getElem_mem _)
  · rw [List.getElem?_eq_none (by omega)]
    decide

/-! ### The bit size `2^32 - 1` -/

theorem wrapped_count : (to_int ((4294967295 + 2 ^ 32 - 1) % 2 ^ 32) + 1).toNat = 0 := by
  decide

theorem wrapped_test (buffer_size : Nat) : ¬ buffer_size < (4294967295 + 1) % 2 ^ 32 := by
  have h : (4294967295 + 1) % 2 ^ 32 = 0 := by decide
  rw [h]
  exact Nat.not_lt_zero _

/-- The full-width path with a negative start index: the loop is not
entered, the terminator is written into the first cell and 0 is returned. -/
theorem empty_full_path (cr : core) (x : Char) (rest : List Char) (buffer_size : Nat)
    (htest : ¬ buffer_size < (cr.bit_size + 1) % 2 ^ 32)
    (hcount : (to_int ((cr.bit_size + 2 ^ 32 - 1) % 2 ^ 32) + 1).toNat = 0) :
    core_to_binary_string cr (x :: rest) buffer_size = some (0, NUL :: rest) := by
  unfold core_to_binary_string
  rw [if_neg htest, hcount]
  simp [extract_loop, terminate, write_char]

/-- For the bit size `2^32 - 1` the size test of line 37 compares with 0:
whatever `buffer_size`, the full-width path is taken with the index -2, no
bit is read, and the terminator is written into the first cell. -/
theorem wrapped_size (cr : core) (h : cr.bit_size = 4294967295) (x : Char) (rest : List Char)
    (buffer_size : Nat) :
    core_to_binary_string cr (x :: rest) buffer_size = some (0, NUL :: rest) := by
  apply empty_full_path
  · rw [h]; exact wrapped_test buffer_size
  · rw [h]; exact wrapped_count

theorem encoded_integer_wrapped (cr : core) (h : cr.bit_size = 4294967295) (buffer : List Char)
    (hb : 0 < buffer.length) : encoded_integer cr buffer = some 0 := by
  match buffer, hb with
  | x :: rest, _ =>
    unfold encoded_integer
    rw [wrapped_size cr h x rest 33]
    simp only
    rw [if_neg (by decide)]
    simp only [c_str, if_true, Option.map_some']
    rfl

/-- Claim C1: for a core with `1 <= bit_size <= 32` and a single 32-bit block
`w`, the integer the encoder produces with the 33-byte buffer (whatever the
buffer held before) is `w` modulo `2 ^ bit_size`: output bit `i` is core bit
`i` for `i < bit_size`, every output bit at a position `>= bit_size` is zero,
and for `bit_size = 32` the output is the pattern `w` itself. -/
theorem encode_single_block (bit_size w : Nat) (buffer : List Char)
    (h1 : 1 ≤ bit_size) (h32 : bit_size ≤ 32) (hw : w < 2 ^ 32) (hb : buffer.length = 33) :
    ∃ v, encoded_integer ⟨bit_size, [w]⟩ buffer = some v ∧ v = w % 2 ^ bit_size ∧
      (∀ i, i < bit_size → (v >>> i) &&& 1 = core_bit ⟨bit_size, [w]⟩ i) ∧
      (∀ i, bit_size ≤ i → (v >>> i) &&& 1 = 0) ∧
      (bit_size = 32 → v = w) := by
  have henc := encoded_integer_eq ⟨bit_size, [w]⟩ buffer hb (by simp only; omega)
    (by simp only [List.length_singleton]; omega)
  have hmin : min bit_size 32 = bit_size := by omega
  have hlast : last_block ⟨bit_size, [w]⟩ = w := rfl
  simp only [hmin, hlast] at henc
  refine ⟨w % 2 ^ bit_size, henc, rfl, ?_, ?_, ?_⟩
  · intro i hi
    rw [core_bit_low _ i (by omega), hlast, bit_eq_testBit, Nat.testBit_mod_two_pow,
      ← Nat.toNat_testBit]
    simp [hi]
  · intro i hi
    rw [bit_eq_testBit, Nat.testBit_mod_two_pow]
    simp [Nat.not_lt.mpr hi]
  · intro h
    rw [h]
    exact Nat.mod_eq_of_lt hw

theorem encode_single_block_witness :
    ∃ v, encoded_integer ⟨5, [0xFFFFFFF5]⟩ (List.replicate 33 'x') = some v ∧
      v = 0xFFFFFFF5 % 2 ^ 5 ∧
      (∀ i, i < 5 → (v >>> i) &&& 1 = core_bit ⟨5, [0xFFFFFFF5]⟩ i) ∧
      (∀ i, 5 ≤ i → (v >>> i) &&& 1 = 0) ∧
      (5 = 32 → v = 0xFFFFFFF5) :=
  encode_single_block 5 0xFFFFFFF5 (List.replicate 33 'x') (by decide) (by decide) (by decide)
    (by decide)

theorem encode_wide_aux (cr : core) (buffer : List Char) (hb : buffer.length = 33)
    (h : 32 < cr.bit_size) (hsz : cr.bit_size + 1 < 2 ^ 32)
    (hlen : cr.bit_rep.length = (cr.bit_size + 31) / 32)
    (hw : ∀ w ∈ cr.bit_rep, w < 2 ^ 32) :
    encoded_integer cr buffer = some (last_block cr) := by
  rw [encoded_integer_eq cr buffer hb hsz hlen]
  have hmin : min cr.bit_size 32 = 32 := by omega
  rw [hmin, Nat.mod_eq_of_lt (last_block_lt cr hw)]

theorem last_block_eq_of_bits (cr cr2 : core) (hw : ∀ w ∈ cr.bit_rep, w < 2 ^ 32)
    (hw2 : ∀ w ∈ cr2.bit_rep, w < 2 ^ 32)
    (hag : ∀ i, i < 32 → core_bit cr2 i = core_bit cr i) : last_block cr2 = last_block cr := by
  apply Nat.eq_of_testBit_eq
  intro i
  by_cases hi : i < 32
  · have := hag i hi
    rw [core_bit_low _ i hi, core_bit_low _ i hi, ← Nat.toNat_testBit, ← Nat.toNat_testBit] at this
    cases h1 : (last_block cr2).testBit i <;> cases h2 : (last_block cr).testBit i <;>
      simp [h1, h2] at this ⊢
  · have hp : 2 ^ 32 ≤ 2 ^ i := Nat.pow_le_pow_right (by decide) (by omega)
    rw [Nat.testBit_lt_two_pow (lt_of_lt_of_le (last_block_lt cr hw) hp),
      Nat.testBit_lt_two_pow (lt_of_lt_of_le (last_block_lt cr2 hw2) hp)]

/-- Claim C2 fails: the core of bit size `2^32 - 1` with its `2^27` blocks,
each of value 7, has the last block 7 and encodes to 0: `bit_size + 1` wraps
to 0 in the size test of line 37, the full-width path is taken with the index
-2 and no bit is extracted. -/
theorem widest_core_encodes_zero :
    32 < (4294967295 : Nat)
    ∧ (List.replicate 134217728 (7 : Nat)).length = (4294967295 + 31) / 32
    ∧ (∀ w ∈ List.replicate 134217728 (7 : Nat), w < 2 ^ 32)
    ∧ (List.replicate 134217728 (7 : Nat)).getLast? = some 7
    ∧ encoded_integer ⟨4294967295, List.replicate 134217728 7⟩ (List.replicate 33 'x')
        = some 0 := by
  refine ⟨by decide, ?_, ?_, ?_, ?_⟩
  · rw [List.length_replicate]
  · intro w hw
    rw [List.eq_of_mem_replicate hw]
    decide
  · rw [List.getLast?_replicate, if_neg (by decide)]
  · exact encoded_integer_wrapped _ rfl _ (by rw [List.length_replicate]; decide)

/-- Claim C2, amended: for a core with `bit_size > 32` and
`bit_size + 1 < 2^32`, and `ceil(bit_size / 32)` 32-bit blocks, most
significant first, the encoded integer is the value of the last block, the
least significant 32 bits of the bit string; hence a second such core that
agrees with it on the bit indices `0 .. 31` encodes to the same integer,
whatever its bits at the indices `>= 32` are. -/
theorem encode_wide (cr : core) (buffer : List Char) (hb : buffer.length = 33)
    (h : 32 < cr.bit_size) (hsz : cr.bit_size + 1 < 2 ^ 32)
    (hlen : cr.bit_rep.length = (cr.bit_size + 31) / 32)
    (hw : ∀ w ∈ cr.bit_rep, w < 2 ^ 32) :
    (∃ v, cr.bit_rep.getLast? = some v ∧ encoded_integer cr buffer = some v) ∧
    ∀ (cr2 : core) (buffer2 : List Char), buffer2.length = 33 → 32 < cr2.bit_size →
      cr2.bit_size + 1 < 2 ^ 32 → cr2.bit_rep.length = (cr2.bit_size + 31) / 32 →
      (∀ w ∈ cr2.bit_rep, w < 2 ^ 32) →
      (∀ i, i < 32 → core_bit cr2 i = core_bit cr i) →
      encoded_integer cr2 buffer2 = encoded_integer cr buffer := by
  have hne : cr.bit_rep ≠ [] := by
    intro h0
    rw [h0] at hlen
    simp at hlen
    omega
  refine ⟨⟨last_block cr, getLast_eq_last_block cr hne, encode_wide_aux cr buffer hb h hsz hlen hw⟩, ?_⟩
  intro cr2 buffer2 hb2 h2 hsz2 hlen2 hw2 hag
  rw [encode_wide_aux cr buffer hb h hsz hlen hw, encode_wide_aux cr2 buffer2 hb2 h2 hsz2 hlen2 hw2,
    last_block_eq_of_bits cr cr2 hw hw2 hag]

/-- The example of the specification: `bit_size = 40` with the blocks
`[0xFFFFFFFF, 0x0000000F]` encodes to 15. -/
theorem encode_wide_witness :
    encoded_integer ⟨40, [0xFFFFFFFF, 0x0000000F]⟩ (List.replicate 33 'x') = some 15 := by
  have h := (encode_wide ⟨40, [0xFFFFFFFF, 0x0000000F]⟩ (List.replicate 33 'x') (by decide)
    (by decide) (by decide) (by decide) (by decide)).1
  obtain ⟨v, hv, he⟩ := h
  have : v = 15 := by
    have h2 : (some 15 : Option Nat) = some v := hv
    exact (Option.some.inj h2).symm
  rw [he, this]

theorem last_block_replicate (bit_size n a : Nat) (hn : 0 < n) :
    last_block ⟨bit_size, List.replicate n a⟩ = a := by
  unfold last_block
  dsimp only
  rw [List.length_replicate, List.getD_eq_getElem?_getD,
    List.getElem?_replicate_of_lt (by omega)]
  rfl

/-- Claim C3 fails: for the well-formed core of bit size `2^32 - 1` whose
blocks all have the value 7 the textual path returns 0 and the direct
formulation returns 7. -/
theorem widest_core_paths_differ :
    1 ≤ (4294967295 : Nat)
    ∧ (List.replicate 134217728 (7 : Nat)).length = (4294967295 + 31) / 32
    ∧ encoded_integer ⟨4294967295, List.replicate 134217728 7⟩ (List.replicate 33 'x')
        = some 0
    ∧ direct_encode ⟨4294967295, List.replicate 134217728 7⟩ = 7 := by
  refine ⟨by decide, ?_, ?_, ?_⟩
  · rw [List.length_replicate]
  · exact encoded_integer_wrapped _ rfl _ (by rw [List.length_replicate]; decide)
  · rw [direct_encode_eq, last_block_replicate _ _ _ (by decide)]
    have hmin : min (4294967295 : Nat) 32 = 32 := by decide
    show 7 % 2 ^ min 4294967295 32 = 7
    rw [hmin]
    decide

/-- Claim C3, amended: for a core with `bit_size >= 1`, `bit_size + 1 < 2^32`
and well-formed blocks, the textual path of the program (render the bits with
`core_to_binary_string` into the 33-byte buffer, parse them again with
`binary_string_to_int`) returns the value of the direct bit-extraction
formulation `direct_encode`. The statement holds for `bit_size = 0` as
well. -/
theorem textual_eq_direct (cr : core) (buffer : List Char) (hb : buffer.length = 33)
    (hsz : cr.bit_size + 1 < 2 ^ 32)
    (hlen : cr.bit_rep.length = (cr.bit_size + 31) / 32) :
    encoded_integer cr buffer = some (direct_encode cr) := by
  rw [encoded_integer_eq cr buffer hb hsz hlen, direct_encode_eq]

theorem textual_eq_direct_witness :
    encoded_integer ⟨40, [0xFFFFFFFF, 0x0000000F]⟩ (List.replicate 33 'y')
      = some (direct_encode ⟨40, [0xFFFFFFFF, 0x0000000F]⟩) :=
  textual_eq_direct ⟨40, [0xFFFFFFFF, 0x0000000F]⟩ (List.replicate 33 'y') (by decide)
    (by decide) (by decide)

/-! ### The file of integers -/

theorem fresh_length (env : Env) (n : Nat) : (fresh env n).length = n := by
  simp [fresh]

theorem encoded_value_wrapped (cr : core) (h : cr.bit_size = 4294967295) :
    encoded_value cr = 0 := by
  unfold encoded_value
  rw [h, if_neg (by decide)]

theorem encoded_value_of_lt (cr : core) (h : cr.bit_size + 1 < 2 ^ 32) :
    encoded_value cr = direct_encode cr := by
  unfold encoded_value
  rw [if_pos h, direct_encode_eq]

/-- The integer the encoder produces for every well-formed core whose bit
size is a value of its 32-bit field. -/
theorem encoded_integer_full (cr : core) (buffer : List Char) (hb : buffer.length = 33)
    (hsz : cr.bit_size < 2 ^ 32) (hlen : cr.bit_rep.length = (cr.bit_size + 31) / 32) :
    encoded_integer cr buffer = some (encoded_value cr) := by
  by_cases h : cr.bit_size + 1 < 2 ^ 32
  · rw [encoded_integer_eq cr buffer hb h hlen]
    unfold encoded_value
    rw [if_pos h]
  · have h2 : cr.bit_size = 4294967295 := by omega
    rw [encoded_integer_wrapped cr h2 buffer (by omega), encoded_value_wrapped cr h2]

/-- What `core_to_binary_string` leaves in the 33-byte scratch buffer for a
well-formed core: a non-negative length and a terminated string that
`binary_string_to_int` parses to `encoded_value`. -/
theorem scratch_full (cr : core) (buffer : List Char) (hb : buffer.length = 33)
    (hsz : cr.bit_size < 2 ^ 32) (hlen : cr.bit_rep.length = (cr.bit_size + 31) / 32) :
    ∃ (n : Nat) (s post : List Char),
      core_to_binary_string cr buffer 33 = some ((n : Int), s ++ NUL :: post) ∧
      (s ++ NUL :: post).length = 33 ∧ is_binary s ∧
      binary_string_to_int s = encoded_value cr := by
  by_cases h : cr.bit_size + 1 < 2 ^ 32
  · obtain ⟨post, h1, h2⟩ := core_to_binary_string_33 cr buffer hb h hlen
    refine ⟨_, core_bits cr, post, h1, h2, core_bits_binary cr, ?_⟩
    rw [binary_string_to_int_core_bits]
    unfold encoded_value
    rw [if_pos h]
  · have h2 : cr.bit_size = 4294967295 := by omega
    have hpos : 0 < buffer.length := by omega
    match buffer, hpos, hb with
    | x :: rest, _, hb =>
      refine ⟨0, [], rest, ?_, ?_, ?_, ?_⟩
      · rw [wrapped_size cr h2 x rest 33]
        rfl
      · simpa using hb
      · intro c hc; simp at hc
      · rw [encoded_value_wrapped cr h2]
        rfl

theorem convert_loop_full (l : List core) :
    ∀ (i : Nat) (buffer written : List Char) (skipped : List Nat), buffer.length = 33 →
      (∀ cr ∈ l, cr.bit_size < 2 ^ 32 ∧ cr.bit_rep.length = (cr.bit_size + 31) / 32) →
      convert_loop l i buffer written skipped
        = some (written ++
            (l.map (fun cr => Nat.toDigits 10 (encoded_value cr) ++ [' '])).flatten,
          skipped) := by
  induction l with
  | nil => intro i buffer written skipped _ _; simp [convert_loop]
  | cons cr rest ih =>
    intro i buffer written skipped hb hwf
    obtain ⟨hsz, hlen⟩ := hwf cr (List.mem_cons_self _ _)
    obtain ⟨n, s, post, h1, h2, h3, h4⟩ := scratch_full cr buffer hb hsz hlen
    simp only [convert_loop, h1]
    rw [if_neg (by omega), c_str_append _ h3]
    simp only
    rw [ih (i + 1) _ _ skipped h2 (fun c hc => hwf c (List.mem_cons_of_mem _ hc)), h4]
    simp [fmt_u]

theorem convert_full (env : Env) (lps_ptr : lps) (filename : List Char)
    (hopen : env.writable filename = true) (hmalloc : env.malloc_ok 2 = true)
    (hwf : ∀ cr ∈ lps_ptr,
      cr.bit_size < 2 ^ 32 ∧ cr.bit_rep.length = (cr.bit_size + 31) / 32) :
    convert_lps_cores_to_integers_file env lps_ptr filename
      = some ⟨0, true,
          (lps_ptr.map (fun cr => Nat.toDigits 10 (encoded_value cr) ++ [' '])).flatten, []⟩ := by
  unfold convert_lps_cores_to_integers_file
  simp only [hopen, hmalloc, Bool.not_true, Bool.false_eq_true, if_false]
  rw [convert_loop_full lps_ptr 0 _ [] [] (fresh_length env 33) hwf]
  simp

theorem encoded_value_zero (cr : core) (h : cr.bit_size = 0) : encoded_value cr = 0 := by
  unfold encoded_value
  rw [h]
  simp [Nat.mod_one]

/-- Claim C4 fails: on the cores of bit sizes 3, 0 and 2 the function writes
the three tokens `5 0 1 ` and prints no warning; the core of bit size 0 is
not skipped, the output is not `5 1 `. -/
theorem zero_core_not_skipped :
    convert_lps_cores_to_integers_file (sample_env [] (fun _ => true) (fun _ => true) [])
        [⟨3, [5]⟩, ⟨0, []⟩, ⟨2, [1]⟩] ['o']
      = some ⟨0, true, ['5', ' ', '0', ' ', '1', ' '], []⟩
    ∧ (['5', ' ', '0', ' ', '1', ' '] : List Char) ≠ ['5', ' ', '1', ' '] := by
  decide

/-- Claim C4, amended: for every LPS of well-formed cores (each with
`ceil(bit_size / 32)` blocks and a bit size that is a value of its 32-bit
field), when the output file opens and the scratch buffer is allocated, a
core whose `bit_size` is 0 is encoded like any other: the function writes the
token `0 ` for it at its place, between the tokens of the cores before it and
the tokens of the cores after it, prints no warning, and returns 0. -/
theorem zero_core_encoded_as_zero (env : Env) (before after : lps) (cr : core)
    (filename : List Char) (hopen : env.writable filename = true)
    (hmalloc : env.malloc_ok 2 = true) (hzero : cr.bit_size = 0)
    (hwf : ∀ c ∈ before ++ cr :: after,
      c.bit_size < 2 ^ 32 ∧ c.bit_rep.length = (c.bit_size + 31) / 32) :
    ∃ out_before out_after,
      convert_lps_cores_to_integers_file env before filename
        = some ⟨0, true, out_before, []⟩ ∧
      convert_lps_cores_to_integers_file env after filename
        = some ⟨0, true, out_after, []⟩ ∧
      convert_lps_cores_to_integers_file env (before ++ cr :: after) filename
        = some ⟨0, true, out_before ++ ['0', ' '] ++ out_after, []⟩ := by
  refine ⟨(before.map (fun c => Nat.toDigits 10 (encoded_value c) ++ [' '])).flatten,
    (after.map (fun c => Nat.toDigits 10 (encoded_value c) ++ [' '])).flatten, ?_, ?_, ?_⟩
  · exact convert_full env before filename hopen hmalloc
      (fun c hc => hwf c (List.mem_append_left _ hc))
  · exact convert_full env after filename hopen hmalloc
      (fun c hc => hwf c (List.mem_append_right _ (List.mem_cons_of_mem _ hc)))
  · have hd : Nat.toDigits 10 0 = ['0'] := rfl
    rw [convert_full env _ filename hopen hmalloc hwf]
    simp [encoded_value_zero cr hzero, hd]

theorem zero_core_encoded_as_zero_witness :
    ∃ out_before out_after,
      convert_lps_cores_to_integers_file (sample_env [] (fun _ => true) (fun _ => true) [])
        [⟨3, [5]⟩] ['o'] = some ⟨0, true, out_before, []⟩ ∧
      convert_lps_cores_to_integers_file (sample_env [] (fun _ => true) (fun _ => true) [])
        [⟨40, [1, 7]⟩] ['o'] = some ⟨0, true, out_after, []⟩ ∧
      convert_lps_cores_to_integers_file (sample_env [] (fun _ => true) (fun _ => true) [])
        ([⟨3, [5]⟩] ++ ⟨0, []⟩ :: [⟨40, [1, 7]⟩]) ['o']
        = some ⟨0, true, out_before ++ ['0', ' '] ++ out_after, []⟩ :=
  zero_core_encoded_as_zero (sample_env [] (fun _ => true) (fun _ => true) [])
    [⟨3, [5]⟩] [⟨40, [1, 7]⟩] ⟨0, []⟩ ['o'] rfl rfl rfl (by decide)

/-- Claim C5 fails: when the output file opens and the allocation of the
scratch buffer fails, the function returns 1 and writes nothing, for an LPS
without cores and for an LPS with one core. -/
theorem allocation_failure_writes_nothing :
    convert_lps_cores_to_integers_file (sample_env [] (fun _ => true) (fun k => decide (k ≠ 2)) [])
        [] ['o'] = some ⟨1, true, [], []⟩
    ∧ convert_lps_cores_to_integers_file
        (sample_env [] (fun _ => true) (fun k => decide (k ≠ 2)) []) [⟨3, [5]⟩] ['o']
      = some ⟨1, true, [], []⟩
    ∧ ([] : List Char) ≠ Nat.toDigits 10 (direct_encode ⟨3, [5]⟩) ++ [' '] := by
  decide

/-- Claim C5, amended: for every LPS of well-formed cores (each with
`ceil(bit_size / 32)` blocks and a bit size that is a value of its 32-bit
field), when the output file opens and the scratch buffer is allocated, the
bytes written are the concatenation, in core order, of the decimal digits of
the encoded integer of each core followed by one space, and nothing else; no
core is skipped and the function returns 0. The encoded integer of a core is
what the encoder returns for it with the 33-byte buffer, `encoded_value`; it
is the value of the direct formulation when `bit_size + 1 < 2^32`. For an LPS
without cores the output is empty. -/
theorem convert_output (env : Env) (lps_ptr : lps) (filename : List Char)
    (hopen : env.writable filename = true) (hmalloc : env.malloc_ok 2 = true)
    (hwf : ∀ cr ∈ lps_ptr,
      cr.bit_size < 2 ^ 32 ∧ cr.bit_rep.length = (cr.bit_size + 31) / 32) :
    convert_lps_cores_to_integers_file env lps_ptr filename
      = some ⟨0, true,
          (lps_ptr.map (fun cr => Nat.toDigits 10 (encoded_value cr) ++ [' '])).flatten, []⟩
    ∧ (∀ cr ∈ lps_ptr, ∀ buffer : List Char, buffer.length = 33 →
        encoded_integer cr buffer = some (encoded_value cr))
    ∧ (∀ cr ∈ lps_ptr, cr.bit_size + 1 < 2 ^ 32 → encoded_value cr = direct_encode cr)
    ∧ (lps_ptr = [] →
        convert_lps_cores_to_integers_file env lps_ptr filename = some ⟨0, true, [], []⟩) := by
  have h := convert_full env lps_ptr filename hopen hmalloc hwf
  refine ⟨h, ?_, ?_, ?_⟩
  · intro cr hcr buffer hb
    exact encoded_integer_full cr buffer hb (hwf cr hcr).1 (hwf cr hcr).2
  · intro cr _ hlt
    exact encoded_value_of_lt cr hlt
  · intro h0
    rw [h, h0]
    rfl

theorem convert_output_witness :
    convert_lps_cores_to_integers_file (sample_env [] (fun _ => true) (fun _ => true) [])
      [⟨40, [0xFFFFFFFF, 0xF]⟩, ⟨32, [4000000000]⟩, ⟨3, [13]⟩] ['o']
      = some ⟨0, true, "15 4000000000 5 ".toList, []⟩ := by
  have h := (convert_output (sample_env [] (fun _ => true) (fun _ => true) [])
    [⟨40, [0xFFFFFFFF, 0xF]⟩, ⟨32, [4000000000]⟩, ⟨3, [13]⟩] ['o'] rfl rfl (by decide)).1
  rw [h]
  decide

/-- Claim C6 on the code: with valid arguments and a readable input file, when
the output file cannot be opened `main` still returns 0; the code returned
by `convert_lps_cores_to_integers_file` is dropped. -/
theorem output_open_failure_exits_zero :
    main (sample_env "AC GT\n".toList (fun _ => false) (fun _ => true) [⟨3, [5]⟩])
        ["ri-lcp".toList, "-i".toList, "in.txt".toList]
      = some ⟨0, [Event.open_input "in.txt".toList true,
                  Event.open_output "in.txt-level1.txt".toList false]⟩ := by
  decide

/-! ### The normalizer -/

theorem isspace_iff (c : Char) : isspace c = true ↔ c ∈ c_whitespace := by
  constructor
  · intro h
    simp only [isspace, Bool.or_eq_true, Bool.and_eq_true, decide_eq_true_eq] at h
    rcases h with h | ⟨h1, h2⟩
    · rw [h]; decide
    · have hc : c = Char.ofNat c.toNat := (Char.ofNat_toNat c).symm
      rw [hc]
      generalize c.toNat = n at h1 h2
      interval_cases n <;> decide
  · intro h
    simp only [c_whitespace, List.mem_cons, List.mem_singleton, List.not_mem_nil, or_false] at h
    rcases h with h | h | h | h | h | h <;> rw [h] <;> decide

theorem strip_loop_eq (fc : List Char) (n : Nat) :
    ∀ (i : Nat) (pre post : List Char), i + n ≤ fc.length → n ≤ post.length →
      strip_loop fc n i (pre ++ post) pre.length
        = some (pre ++ ((fc.drop i).take n).filter (fun c => !isspace c)
                  ++ post.drop (((fc.drop i).take n).filter (fun c => !isspace c)).length,
                pre.length + (((fc.drop i).take n).filter (fun c => !isspace c)).length) := by
  induction n with
  | zero => intro i pre post _ _; simp [strip_loop]
  | succ n ih =>
    intro i pre post hi hpost
    have hlt : i < fc.length := by omega
    have hdrop : (fc.drop i).take (n + 1) = fc[i] :: (fc.drop (i + 1)).take n := by
      rw [List.drop_eq_getElem_cons hlt, List.take_succ_cons]
    rw [hdrop]
    simp only [strip_loop, List.getElem?_eq_getElem hlt]
    by_cases hsp : isspace fc[i] = true
    · simp only [hsp, Bool.not_true, Bool.false_eq_true, if_false, List.filter_cons_of_neg,
        not_false_eq_true]
      rw [ih (i + 1) pre post (by omega) (by omega)]
    · have hsp2 : isspace fc[i] = false := by simpa using hsp
      match post, hpost with
      | x :: post, hpost =>
        simp only [hsp2, Bool.not_false, if_true]
        rw [write_char_at]
        simp only
        have h2 := ih (i + 1) (pre ++ [fc[i]]) post (by omega) (by simpa using hpost)
        simp only [List.length_append, List.length_singleton, List.append_assoc,
          List.singleton_append, List.cons_append, List.nil_append] at h2
        rw [h2]
        simp [hsp2, Nat.add_assoc, Nat.add_comm 1]

theorem normalize_eq (bytes tail cleaned_str : List Char)
    (hbuf : cleaned_str.length = bytes.length + 1) :
    ∃ rest, normalize (bytes ++ tail) bytes.length cleaned_str
      = some (bytes.filter (fun c => !isspace c) ++ NUL :: rest,
              (bytes.filter (fun c => !isspace c)).length) := by
  have h := strip_loop_eq (bytes ++ tail) bytes.length 0 [] cleaned_str (by simp) (by omega)
  simp only [List.drop_zero, List.take_left', List.nil_append, List.length_nil,
    Nat.zero_add] at h
  have hle : (bytes.filter (fun c => !isspace c)).length ≤ bytes.length := List.length_filter_le _ _
  have hrest : (cleaned_str.drop (bytes.filter (fun c => !isspace c)).length).length
      = cleaned_str.length - (bytes.filter (fun c => !isspace c)).length := by simp
  match hd : cleaned_str.drop (bytes.filter (fun c => !isspace c)).length, hrest with
  | [], hr => simp at hr; omega
  | x :: rest, _ =>
    refine ⟨rest, ?_⟩
    unfold normalize
    have h0 : strip_loop (bytes ++ tail) bytes.length 0 cleaned_str 0
        = some (bytes.filter (fun c => !isspace c) ++ x :: rest,
                (bytes.filter (fun c => !isspace c)).length) := by
      have := h
      rw [hd] at this
      exact this
    rw [h0]
    simp only
    rw [write_char_at]

/-- Claim C7: for a buffer of `N` bytes read from the input, the normalizer
loop of `main` leaves in `cleaned_str` the non-whitespace bytes of the input
in their order, followed by the terminator, with `cleaned_len = M <= N`; for
an input of whitespace only (the empty input included) `M = 0`. The loop
always completes. Whitespace is what `isspace` accepts in the C locale:
space, `\t`, `\n`, `\v`, `\f`, `\r`. -/
theorem whitespace_removed (bytes cleaned_str : List Char)
    (hbuf : cleaned_str.length = bytes.length + 1) :
    ∃ buf M, normalize (bytes ++ [NUL]) bytes.length cleaned_str = some (buf, M) ∧
      buf.take M = bytes.filter (fun c => !isspace c) ∧
      buf[M]? = some NUL ∧
      M ≤ bytes.length ∧
      ((∀ c ∈ bytes, isspace c = true) → M = 0) ∧
      (∀ c : Char, isspace c = true ↔ c ∈ c_whitespace) := by
  obtain ⟨rest, h⟩ := normalize_eq bytes [NUL] cleaned_str hbuf
  refine ⟨_, _, h, ?_, ?_, List.length_filter_le _ _, ?_, isspace_iff⟩
  · simp
  · rw [List.getElem?_append_right (Nat.le_refl _)]
    simp
  · intro hall
    have : bytes.filter (fun c => !isspace c) = [] := by
      rw [List.filter_eq_nil_iff]
      intro c hc
      simp [hall c hc]
    rw [this]
    rfl

theorem whitespace_removed_witness :
    ∃ buf M, normalize (['A', 'C', ' ', 'G', Char.ofNat 10, ' ', 'T', ' '] ++ [NUL]) ['A', 'C', ' ', 'G', Char.ofNat 10, ' ', 'T', ' '].length
        (List.replicate 9 'x') = some (buf, M) ∧
      buf.take M = ['A', 'C', ' ', 'G', Char.ofNat 10, ' ', 'T', ' '].filter (fun c => !isspace c) ∧
      buf[M]? = some NUL ∧
      M ≤ ['A', 'C', ' ', 'G', Char.ofNat 10, ' ', 'T', ' '].length ∧
      ((∀ c ∈ ['A', 'C', ' ', 'G', Char.ofNat 10, ' ', 'T', ' '], isspace c = true) → M = 0) ∧
      (∀ c : Char, isspace c = true ↔ c ∈ c_whitespace) :=
  whitespace_removed ['A', 'C', ' ', 'G', Char.ofNat 10, ' ', 'T', ' '] (List.replicate 9 'x') (by decide)

/-! ### The command line and the output path -/

theorem parse_args_nonneg (atoi : List Char → Int) :
    ∀ (args : List (List Char)) (inp : Option (List Char)) (d : Int)
      (res : Option (List Char) × Int),
      0 ≤ d → parse_args atoi args inp d = some res → 0 ≤ res.2
  | [], inp, d, res, hd, h => by
    simp only [parse_args, Option.some.injEq] at h
    rw [← h]; exact hd
  | [a], inp, d, res, hd, h => by
    simp only [parse_args] at h
    split at h
    · simp at h
    · split at h <;> simp at h
  | a :: v :: rest, inp, d, res, hd, h => by
    simp only [parse_args] at h
    split at h
    · exact parse_args_nonneg atoi rest (some v) d res hd h
    · split at h
      · split at h
        · simp at h
        · exact parse_args_nonneg atoi rest inp (atoi v) res (by omega) h
      · simp at h

theorem output_filename_eq (input_file : List Char) (d : Int) (hd : 0 ≤ d) :
    output_filename input_file d = (path_text input_file d).take 511 := by
  unfold output_filename path_text fmt_d
  rw [if_neg (by omega)]
  simp [List.append_assoc]

theorem run_output_path (env : Env) (input_file : List Char) (d : Int) (r : run_result)
    (path : List Char) (ok : Bool) (h : run env input_file d = some r)
    (hev : Event.open_output path ok ∈ r.trace) : path = output_filename input_file d := by
  unfold run at h
  split at h
  · simp only [Option.some.injEq] at h
    rw [← h] at hev
    simp at hev
  · simp only at h
    split at h
    · simp only [Option.some.injEq] at h
      rw [← h] at hev
      simp at hev
    · split at h
      · simp only [Option.some.injEq] at h
        rw [← h] at hev
        simp at hev
      · split at h
        · simp at h
        · split at h
          · simp at h
          · simp only [Option.some.injEq] at h
            rw [← h] at hev
            simp only [List.mem_append, List.mem_cons, List.mem_singleton, Event.open_output.injEq,
              List.not_mem_nil, or_false] at hev
            rcases hev with (hev | hev) | hev
            · simp at hev
            · exact hev.1
            · split at hev <;> simp at hev

/-- Claim C8, amended: the path `main` opens for output is the first 511
characters of `input_file ++ "-level" ++ decimal(deepen_level) ++ ".txt"`,
where `input_file` and the non-negative `deepen_level` are what the argument
scan delivers; it is the whole concatenation when that has at most 511
characters. -/
theorem output_path_truncated (env : Env) (argv : List (List Char)) (r : run_result)
    (path : List Char) (ok : Bool) (hmain : main env argv = some r)
    (hev : Event.open_output path ok ∈ r.trace) :
    ∃ input_file deepen_level,
      parse_args env.atoi (argv.drop 1) none 1 = some (some input_file, deepen_level) ∧
      0 ≤ deepen_level ∧
      path = (path_text input_file deepen_level).take 511 ∧
      ((path_text input_file deepen_level).length ≤ 511 →
        path = path_text input_file deepen_level) := by
  unfold main at hmain
  split at hmain
  · simp only [Option.some.injEq] at hmain
    rw [← hmain] at hev
    simp at hev
  · simp only [Option.some.injEq] at hmain
    rw [← hmain] at hev
    simp at hev
  · rename_i input_file deepen_level hparse
    have hd : 0 ≤ deepen_level :=
      parse_args_nonneg env.atoi _ none 1 _ (by decide) hparse
    have hp := run_output_path env input_file deepen_level r path ok hmain hev
    rw [output_filename_eq _ _ hd] at hp
    refine ⟨input_file, deepen_level, hparse, hd, hp, ?_⟩
    intro hlen
    rw [hp, List.take_of_length_le hlen]

theorem output_path_truncated_witness :
    ∃ input_file deepen_level,
      parse_args (sample_env [] (fun _ => true) (fun _ => true) []).atoi
        ([['p'], ['-', 'd'], ['2'], ['-', 'i'], ['f']].drop 1) none 1
        = some (some input_file, deepen_level) ∧
      0 ≤ deepen_level ∧
      "f-level2.txt".toList = (path_text input_file deepen_level).take 511 ∧
      ((path_text input_file deepen_level).length ≤ 511 →
        "f-level2.txt".toList = path_text input_file deepen_level) :=
  output_path_truncated (sample_env [] (fun _ => true) (fun _ => true) [])
    [['p'], ['-', 'd'], ['2'], ['-', 'i'], ['f']]
    ⟨0, [Event.open_input ['f'] true, Event.open_output "f-level2.txt".toList true,
         Event.output []]⟩
    "f-level2.txt".toList true (by decide) (by decide)

set_option maxRecDepth 100000 in
/-- Claim C8 fails: for an input path of 512 characters the path opened for
output is its first 511 characters, not the concatenation. -/
theorem long_path_is_cut :
    main (sample_env [] (fun _ => true) (fun _ => true) [])
        [['p'], ['-', 'i'], List.replicate 512 'a']
      = some ⟨0, [Event.open_input (List.replicate 512 'a') true,
                  Event.open_output (List.replicate 511 'a') true, Event.output []]⟩
    ∧ List.replicate 511 'a' ≠ path_text (List.replicate 512 'a') 1 := by
  decide

theorem parse_args_accepted (atoi : List Char → Int) (tail : List (List Char)) :
    ∀ (opts : List cli_option) (inp : Option (List Char)) (d : Int),
      (∀ o ∈ opts, o.accepted atoi) →
      ∃ inp2 d2, parse_args atoi (opts.flatMap cli_option.args ++ tail) inp d
          = parse_args atoi tail inp2 d2 ∧
        ((∀ o ∈ opts, o.is_input = false) → inp2 = inp)
  | [], inp, d, _ => ⟨inp, d, rfl, fun _ => rfl⟩
  | .input path :: opts, inp, d, h => by
    obtain ⟨inp2, d2, h1, _⟩ := parse_args_accepted atoi tail opts (some path) d
      (fun o ho => h o (List.mem_cons_of_mem _ ho))
    refine ⟨inp2, d2, ?_, ?_⟩
    · show parse_args atoi (['-', 'i'] :: path :: (opts.flatMap cli_option.args ++ tail)) inp d
        = _
      rw [parse_args, if_pos rfl]
      exact h1
    · intro hno
      have := hno (.input path) (List.mem_cons_self _ _)
      simp [cli_option.is_input] at this
  | .deepen level :: opts, inp, d, h => by
    have hacc : 0 ≤ atoi level := h (.deepen level) (List.mem_cons_self _ _)
    obtain ⟨inp2, d2, h1, h2⟩ := parse_args_accepted atoi tail opts inp (atoi level)
      (fun o ho => h o (List.mem_cons_of_mem _ ho))
    refine ⟨inp2, d2, ?_, ?_⟩
    · show parse_args atoi (['-', 'd'] :: level :: (opts.flatMap cli_option.args ++ tail)) inp d
        = _
      rw [parse_args, if_neg (by decide), if_pos rfl, if_neg (by omega)]
      exact h1
    · intro hno
      exact h2 (fun o ho => hno o (List.mem_cons_of_mem _ ho))

/-- Claim C9: the arguments are a run of accepted options (`-i value`, or
`-d value` with a non-negative `atoi value`) followed by `tail`. When `tail`
starts with a token that is neither `-i` nor `-d`, or is a lone `-i` or a
lone `-d`, or starts with `-d value` where `atoi value` is negative, or is
empty while no `-i` was given, `main` returns 1 and performs no file
operation: the input file is not opened and no output file is created. -/
theorem usage_error_exits_one (env : Env) (prog : List Char) (opts : List cli_option)
    (tail : List (List Char)) (hacc : ∀ o ∈ opts, o.accepted env.atoi)
    (hbad : (∃ t rest, tail = t :: rest ∧ t ≠ ['-', 'i'] ∧ t ≠ ['-', 'd'])
      ∨ tail = [['-', 'i']]
      ∨ tail = [['-', 'd']]
      ∨ (∃ v rest, tail = ['-', 'd'] :: v :: rest ∧ env.atoi v < 0)
      ∨ (tail = [] ∧ ∀ o ∈ opts, o.is_input = false)) :
    main env (prog :: (opts.flatMap cli_option.args ++ tail)) = some ⟨1, []⟩ := by
  obtain ⟨inp2, d2, h1, h2⟩ := parse_args_accepted env.atoi tail opts none 1 hacc
  unfold main
  have hdrop : (prog :: (opts.flatMap cli_option.args ++ tail)).drop 1
      = opts.flatMap cli_option.args ++ tail := rfl
  rw [hdrop, h1]
  rcases hbad with ⟨t, rest, ht, hi, hd⟩ | ht | ht | ⟨v, rest, ht, hneg⟩ | ⟨ht, hno⟩
  · have hnone : parse_args env.atoi (t :: rest) inp2 d2 = none := by
      cases rest <;> simp [parse_args, hi, hd]
    rw [ht, hnone]
  · rw [ht]
    simp [parse_args]
  · rw [ht]
    simp [parse_args]
  · rw [ht]
    simp [parse_args, hneg]
  · rw [ht, h2 hno]
    simp [parse_args]

theorem usage_error_exits_one_witness :
    main (sample_env [] (fun _ => true) (fun _ => true) [])
      (['p'] :: ([cli_option.input ['f'], cli_option.deepen ['3']].flatMap cli_option.args
        ++ [['-', 'x']])) = some ⟨1, []⟩ :=
  usage_error_exits_one (sample_env [] (fun _ => true) (fun _ => true) []) ['p']
    [cli_option.input ['f'], cli_option.deepen ['3']] [['-', 'x']]
    (by
      intro o ho
      simp only [List.mem_cons, List.mem_singleton, List.not_mem_nil, or_false] at ho
      rcases ho with rfl | rfl
      · trivial
      · show (0 : Int) ≤ atoi_model ['3']
        decide)
    (Or.inl ⟨['-', 'x'], [], rfl, by decide, by decide⟩)

/-! ### The range of `binary_string_to_int` -/

theorem to_int_two_pow_31 : to_int (2 ^ 31) = -2147483648 := by decide

/-- Claim C10 fails: for the string of `2^31` characters `1` the length does
not fit the `int` it is stored in, the loop is not entered and the function
returns 0, while the last 32 characters have the value `2^32 - 1`. -/
theorem long_string_parses_to_zero :
    is_binary (List.replicate (2 ^ 31) '1')
    ∧ binary_string_to_int (List.replicate (2 ^ 31) '1') = 0
    ∧ binary_value ((List.replicate (2 ^ 31) '1').drop
        ((List.replicate (2 ^ 31) '1').length - min (List.replicate (2 ^ 31) '1').length 32))
      = 4294967295 := by
  refine ⟨?_, ?_, ?_⟩
  · intro c hc
    exact Or.inr (List.eq_of_mem_replicate hc)
  · unfold binary_string_to_int
    rw [List.length_replicate, to_int_two_pow_31]
    rfl
  · rw [List.length_replicate, List.drop_replicate]
    decide

/-- Claim C10, amended: for a string of characters `0` and `1` shorter than
`2^31` (the empty string included), `binary_string_to_int` returns the value
of the binary numeral made of its last `min(len, 32)` characters, which is
the value of the whole string modulo `2^32`; a string of at most 32
characters is parsed to its exact value. -/
theorem binary_string_to_int_value (s : List Char) (hs : is_binary s)
    (hlen : s.length < 2 ^ 31) :
    binary_string_to_int s = binary_value (s.drop (s.length - min s.length 32))
    ∧ binary_string_to_int s = binary_value s % 2 ^ 32
    ∧ (s.length ≤ 32 → binary_string_to_int s = binary_value s) := by
  have hmin : s.length - min s.length 32 = s.length - 32 := by omega
  have h1 := binary_string_to_int_eq s hs hlen
  refine ⟨by rw [hmin]; exact h1, by rw [binary_value_mod]; exact h1, ?_⟩
  intro h32
  have h0 : s.length - 32 = 0 := by omega
  rw [h1, h0, List.drop_zero]

theorem binary_string_to_int_value_witness :
    binary_string_to_int "1111000011110000111100001111000010101".toList
      = binary_value ("1111000011110000111100001111000010101".toList.drop
          ("1111000011110000111100001111000010101".toList.length
            - min "1111000011110000111100001111000010101".toList.length 32))
    ∧ binary_string_to_int "1111000011110000111100001111000010101".toList
      = binary_value "1111000011110000111100001111000010101".toList % 2 ^ 32
    ∧ ("1111000011110000111100001111000010101".toList.length ≤ 32 →
        binary_string_to_int "1111000011110000111100001111000010101".toList
          = binary_value "1111000011110000111100001111000010101".toList) :=
  binary_string_to_int_value "1111000011110000111100001111000010101".toList
    (by decide) (by decide)

/-! ### `core_to_binary_string` with any buffer size -/

theorem bits_of_eq_map (g : Nat → Char) (n : Nat) :
    bits_of g n = (List.range n).reverse.map g := by
  induction n with
  | zero => rfl
  | succ n ih => simp [bits_of, ih, List.range_succ]

theorem block_number_eq (cr : core) (h1 : 1 ≤ cr.bit_size) (h2 : cr.bit_size < 2 ^ 32)
    (hlen : cr.bit_rep.length = (cr.bit_size + 31) / 32) :
    block_number cr = cr.bit_rep.length := by
  unfold block_number UBLOCK_BIT_SIZE
  rw [hlen]
  omega

theorem read_in_range (cr : core) (h1 : 1 ≤ cr.bit_size) (h2 : cr.bit_size < 2 ^ 32)
    (hlen : cr.bit_rep.length = (cr.bit_size + 31) / 32) (index : Nat)
    (hi : index < cr.bit_size) :
    index / 32 + 1 ≤ block_number cr ∧
    block_number cr - index / 32 - 1 < cr.bit_rep.length ∧
    read_block cr (block_number cr) index
      = some (cr.bit_rep.getD (cr.bit_rep.length - 1 - index / 32) 0) := by
  have hbn := block_number_eq cr h1 h2 hlen
  have hle : index / 32 + 1 ≤ cr.bit_rep.length := by rw [hlen]; omega
  have hlt : cr.bit_rep.length - index / 32 - 1 < cr.bit_rep.length := by omega
  refine ⟨by rw [hbn]; exact hle, by rw [hbn]; exact hlt, ?_⟩
  unfold read_block UBLOCK_BIT_SIZE
  rw [hbn, if_pos hle, List.getD_eq_getElem?_getD]
  have hidx : cr.bit_rep.length - index / 32 - 1 = cr.bit_rep.length - 1 - index / 32 := by omega
  rw [← hidx, List.getElem?_eq_getElem hlt]
  rfl

theorem bit_char_core_bit (cr : core) (index : Nat) :
    bit_char (cr.bit_rep.getD (cr.bit_rep.length - 1 - index / 32) 0) index
      = (if core_bit cr index = 1 then '1' else '0') := by
  unfold bit_char core_bit UBLOCK_BIT_SIZE
  rw [Nat.and_one_is_mod]
  rcases Nat.mod_two_eq_zero_or_one
    (cr.bit_rep.getD (cr.bit_rep.length - 1 - index / 32) 0 >>> (index % 32)) with h | h <;>
    simp [h]

theorem bits_of_core (cr : core) (n : Nat) :
    bits_of (fun index =>
      bit_char (cr.bit_rep.getD (cr.bit_rep.length - 1 - index / 32) 0) index) n
      = bit_string cr n := by
  rw [bits_of_eq_map, bit_string]
  congr 1
  funext index
  exact bit_char_core_bit cr index

theorem bit_string_length (cr : core) (n : Nat) : (bit_string cr n).length = n := by
  simp [bit_string]

theorem bit_string_binary (cr : core) (n : Nat) : is_binary (bit_string cr n) := by
  rw [← bits_of_core]
  exact bits_of_binary _ _

/-- Both paths of `core_to_binary_string` on a well-formed core: `n` bits
are extracted and terminated, when the buffer has more than `n` cells and
`n` is at most the bit size. -/
theorem extract_bits (cr : core) (h1 : 1 ≤ cr.bit_size) (h2 : cr.bit_size < 2 ^ 32)
    (hlen : cr.bit_rep.length = (cr.bit_size + 31) / 32) (n : Nat) (hn : n ≤ cr.bit_size)
    (hn2 : n < 2 ^ 31) (buffer : List Char) (hb : n < buffer.length) :
    (extract_loop cr (block_number cr) n buffer 0).bind terminate
      = some ((n : Int), bit_string cr n ++ NUL :: buffer.drop (n + 1)) := by
  have hsplit : buffer = [] ++ buffer.take n ++ buffer.drop n := by simp
  have hmid : (buffer.take n).length = n := by simp; omega
  have h := extract_loop_eq cr (block_number cr)
    (fun index => cr.bit_rep.getD (cr.bit_rep.length - 1 - index / 32) 0) n []
    (buffer.take n) (buffer.drop n) hmid (by simpa using hn2)
    (fun index hi => (read_in_range cr h1 h2 hlen index (by omega)).2.2)
  rw [← hsplit, bits_of_core] at h
  simp only [List.length_nil, Nat.zero_add, List.nil_append] at h
  have hd : buffer.drop n = buffer[n] :: buffer.drop (n + 1) := List.drop_eq_getElem_cons hb
  rw [h, hd]
  simp only [Option.some_bind, terminate]
  have hw := write_char_at (bit_string cr n) buffer[n] NUL (buffer.drop (n + 1))
  rw [bit_string_length] at hw
  rw [hw]

theorem full_count (cr : core) (h1 : 1 ≤ cr.bit_size) (h2 : cr.bit_size < 2 ^ 31) :
    (to_int ((cr.bit_size + 2 ^ 32 - 1) % 2 ^ 32) + 1).toNat = cr.bit_size := by
  have : (cr.bit_size + 2 ^ 32 - 1) % 2 ^ 32 = cr.bit_size - 1 := by omega
  rw [this, to_int_small _ (by omega)]
  omega

theorem extract_loop_some (cr : core) (bn : Nat) (n : Nat) :
    ∀ (pre post buf : List Char) (k : Nat),
      extract_loop cr bn n (pre ++ post) pre.length = some (buf, k) →
      k = pre.length + n ∧ n ≤ post.length ∧
      ∃ s, s.length = n ∧ is_binary s ∧ buf = pre ++ s ++ post.drop n := by
  induction n with
  | zero =>
    intro pre post buf k h
    simp only [extract_loop, Option.some.injEq, Prod.mk.injEq] at h
    refine ⟨by omega, Nat.zero_le _, [], rfl, ?_, ?_⟩
    · intro c hc; simp at hc
    · simp [h.1]
  | succ n ih =>
    intro pre post buf k h
    cases hr : read_block cr bn n with
    | none => simp [extract_loop, hr] at h
    | some w =>
      match post with
      | [] => simp [extract_loop, hr, write_char] at h
      | x :: post =>
        have hw := write_char_at pre x (bit_char w n) post
        simp only [extract_loop, hr, hw] at h
        by_cases hlt : pre.length + 1 < 2 ^ 31
        · rw [if_pos hlt] at h
          have h2 := ih (pre ++ [bit_char w n]) post buf k
            (by simpa [List.append_assoc] using h)
          obtain ⟨hk, hle, s, hs1, hs2, hs3⟩ := h2
          refine ⟨by simp at hk; omega, by simp; omega, bit_char w n :: s, by simp [hs1], ?_, ?_⟩
          · intro c hc
            rcases List.mem_cons.mp hc with rfl | hc
            · exact bit_char_binary _ _
            · exact hs2 c hc
          · simp [hs3]
        · rw [if_neg hlt] at h
          simp at h

theorem bind_terminate_some (cr : core) (bn n : Nat) (buffer : List Char) (ret : Int)
    (buf : List Char)
    (h : (extract_loop cr bn n buffer 0).bind terminate = some (ret, buf)) :
    ret = (n : Int) ∧ n < buffer.length ∧
      ∃ s, s.length = n ∧ is_binary s ∧ buf = s ++ NUL :: buffer.drop (n + 1) := by
  obtain ⟨st, hst, hterm⟩ := Option.bind_eq_some.mp h
  obtain ⟨b, k⟩ := st
  obtain ⟨hk, hle, s, hs1, hs2, hs3⟩ := extract_loop_some cr bn n [] buffer b k (by simpa using hst)
  simp only [List.length_nil, Nat.zero_add, List.nil_append] at hk hs3
  rw [hk, hs3] at hterm
  unfold terminate write_char at hterm
  simp only at hterm
  by_cases hlt : n < buffer.length
  · have hd : buffer.drop n = buffer[n] :: buffer.drop (n + 1) := List.drop_eq_getElem_cons hlt
    rw [hd] at hterm
    have hset := set_at_length s buffer[n] NUL (buffer.drop (n + 1))
    rw [hs1] at hset
    rw [if_pos (by simp; omega), hset] at hterm
    simp only [Option.some.injEq, Prod.mk.injEq] at hterm
    exact ⟨hterm.1.symm, hlt, s, hs1, hs2, hterm.2.symm⟩
  · have hd : buffer.drop n = [] := List.drop_eq_nil_of_le (by omega)
    rw [hd] at hterm
    rw [if_neg (by simp; omega)] at hterm
    simp at hterm

/-- Claim C11 fails in two places. For the bit size `2^32 - 1` and a buffer
of 5 cells the size test of line 37 compares with 0 and the function returns
0, not -1. For the bit size `2^31 + 5` and a buffer of `2^31 + 6` cells the
start index `bit_size - 1` is negative as an `int`, the loop is not entered
and the function returns 0 with the empty string, not `bit_size` with the
bit string. -/
theorem wrapped_or_negative_index :
    (core_to_binary_string ⟨4294967295, List.replicate 134217728 7⟩
          ('x' :: List.replicate 4 'x') 5
        = some (0, NUL :: List.replicate 4 'x')
      ∧ (5 < 4294967295 + 1 ∧ ¬ (33 ≤ 5 ∧ 32 < 4294967295)))
    ∧ (core_to_binary_string ⟨2147483653, List.replicate 67108865 7⟩
          ('x' :: List.replicate 2147483653 'x') 2147483654
        = some (0, NUL :: List.replicate 2147483653 'x')
      ∧ ('x' :: List.replicate 2147483653 'x').length = 2147483654
      ∧ 2147483653 + 1 ≤ 2147483654
      ∧ (0 : Int) ≠ 2147483653) := by
  refine ⟨⟨wrapped_size _ rfl 'x' _ 5, by decide⟩, ?_, ?_, by decide, by decide⟩
  · exact empty_full_path _ 'x' _ 2147483654 (by decide) (by decide)
  · rw [List.length_cons, List.length_replicate]

/-- Claim C11, amended: for a core with `bit_size >= 1`,
`bit_size + 1 < 2^32` and `ceil(bit_size / 32)` blocks, and a buffer of at
least `buffer_size` cells, `core_to_binary_string` returns -1, leaving the
buffer as it was, exactly when `buffer_size < bit_size + 1` and not
(`buffer_size >= 33` and `bit_size > 32`); when the buffer is too small for
the whole core but `buffer_size >= 33` and `bit_size > 32` it returns 32 and
leaves the string of the bit indices 31 down to 0, most significant bit
first; and when `buffer_size >= bit_size + 1` and `bit_size < 2^31` it
returns `bit_size` and leaves the full bit string, most significant bit
first. -/
theorem core_to_binary_string_cases (cr : core) (buffer : List Char) (buffer_size : Nat)
    (h1 : 1 ≤ cr.bit_size) (h2 : cr.bit_size + 1 < 2 ^ 32)
    (hlen : cr.bit_rep.length = (cr.bit_size + 31) / 32)
    (hbuf : buffer_size ≤ buffer.length) :
    (buffer_size < cr.bit_size + 1 ∧ ¬ (33 ≤ buffer_size ∧ 32 < cr.bit_size) →
      core_to_binary_string cr buffer buffer_size = some (-1, buffer)) ∧
    (∀ (ret : Int) (buf : List Char),
      core_to_binary_string cr buffer buffer_size = some (ret, buf) → ret = -1 →
      buffer_size < cr.bit_size + 1 ∧ ¬ (33 ≤ buffer_size ∧ 32 < cr.bit_size)) ∧
    (buffer_size < cr.bit_size + 1 → 33 ≤ buffer_size → 32 < cr.bit_size →
      ∃ buf, core_to_binary_string cr buffer buffer_size = some (32, buf) ∧
        c_str buf = some (bit_string cr 32)) ∧
    (cr.bit_size + 1 ≤ buffer_size → cr.bit_size < 2 ^ 31 →
      ∃ buf, core_to_binary_string cr buffer buffer_size = some ((cr.bit_size : Int), buf) ∧
        c_str buf = some (bit_string cr cr.bit_size)) := by
  have hmod : (cr.bit_size + 1) % 2 ^ 32 = cr.bit_size + 1 := Nat.mod_eq_of_lt h2
  refine ⟨?_, ?_, ?_, ?_⟩
  · intro hc
    unfold core_to_binary_string
    rw [hmod, if_pos hc.1, if_neg hc.2]
  · intro ret buf h hret
    unfold core_to_binary_string at h
    rw [hmod] at h
    by_cases hsmall : buffer_size < cr.bit_size + 1
    · rw [if_pos hsmall] at h
      by_cases hlow : 33 ≤ buffer_size ∧ 32 < cr.bit_size
      · rw [if_pos hlow] at h
        have := (bind_terminate_some cr _ 32 buffer ret buf h).1
        omega
      · exact ⟨hsmall, hlow⟩
    · rw [if_neg hsmall] at h
      have := (bind_terminate_some cr _ _ buffer ret buf h).1
      omega
  · intro hsmall h33 h32
    unfold core_to_binary_string
    rw [hmod, if_pos hsmall, if_pos ⟨h33, h32⟩,
      extract_bits cr h1 (by omega) hlen 32 (by omega) (by decide) buffer (by omega)]
    exact ⟨_, rfl, c_str_append _ (bit_string_binary cr 32) _⟩
  · intro hbig h31
    unfold core_to_binary_string
    rw [hmod, if_neg (by omega), full_count cr h1 h31,
      extract_bits cr h1 (by omega) hlen cr.bit_size (Nat.le_refl _) h31 buffer (by omega)]
    exact ⟨_, rfl, c_str_append _ (bit_string_binary cr _) _⟩

theorem core_to_binary_string_cases_witness :
    ∃ buf, core_to_binary_string ⟨40, [0xA5, 0x0000000F]⟩ (List.replicate 41 'x') 41
        = some (((40 : Nat) : Int), buf) ∧
      c_str buf = some (bit_string ⟨40, [0xA5, 0x0000000F]⟩ 40) :=
  (core_to_binary_string_cases ⟨40, [0xA5, 0x0000000F]⟩ (List.replicate 41 'x') 41
    (by decide) (by decide) (by decide) (by decide)).2.2.2 (by decide) (by decide)

/-- Claim C13: for a core with `bit_size >= 1` whose block array has length
`ceil(bit_size / 32)`, every block index `block_number - index / 32 - 1`
lies in `[0, len(blocks))`, for the indices `bit_size - 1 .. 0` of the
full-width path and for the indices `31 .. 0` of the low-32-bit path, so
every block read succeeds; and with a buffer of at least `buffer_size` cells
the function completes for every `buffer_size`. The bit size is a value of
its 32-bit field. -/
theorem block_reads_in_range (cr : core) (h1 : 1 ≤ cr.bit_size) (h2 : cr.bit_size < 2 ^ 32)
    (hlen : cr.bit_rep.length = (cr.bit_size + 31) / 32) :
    (∀ index, index < cr.bit_size →
      index / 32 + 1 ≤ block_number cr ∧
      block_number cr - index / 32 - 1 < cr.bit_rep.length ∧
      (read_block cr (block_number cr) index).isSome = true) ∧
    (32 < cr.bit_size → ∀ index, index ≤ 31 →
      index / 32 + 1 ≤ block_number cr ∧
      block_number cr - index / 32 - 1 < cr.bit_rep.length ∧
      (read_block cr (block_number cr) index).isSome = true) ∧
    (cr.bit_size < 2 ^ 31 → ∀ (buffer : List Char) (buffer_size : Nat),
      buffer_size ≤ buffer.length →
      (core_to_binary_string cr buffer buffer_size).isSome = true) := by
  have hall : ∀ index, index < cr.bit_size →
      index / 32 + 1 ≤ block_number cr ∧
      block_number cr - index / 32 - 1 < cr.bit_rep.length ∧
      (read_block cr (block_number cr) index).isSome = true := by
    intro index hi
    obtain ⟨ha, hb, hc⟩ := read_in_range cr h1 h2 hlen index hi
    exact ⟨ha, hb, by rw [hc]; rfl⟩
  refine ⟨hall, fun h32 index hi => hall index (by omega), ?_⟩
  intro h31 buffer buffer_size hbuf
  have hmod : (cr.bit_size + 1) % 2 ^ 32 = cr.bit_size + 1 := Nat.mod_eq_of_lt (by omega)
  unfold core_to_binary_string
  rw [hmod]
  by_cases hsmall : buffer_size < cr.bit_size + 1
  · rw [if_pos hsmall]
    by_cases hlow : 33 ≤ buffer_size ∧ 32 < cr.bit_size
    · rw [if_pos hlow, extract_bits cr h1 h2 hlen 32 (by omega) (by decide) buffer (by omega)]
      rfl
    · rw [if_neg hlow]
      rfl
  · rw [if_neg hsmall, full_count cr h1 h31,
      extract_bits cr h1 h2 hlen cr.bit_size (Nat.le_refl _) h31 buffer (by omega)]
    rfl

theorem block_reads_in_range_witness :
    (∀ index, index < 70 →
      index / 32 + 1 ≤ block_number ⟨70, [1, 2, 3]⟩ ∧
      block_number ⟨70, [1, 2, 3]⟩ - index / 32 - 1 < [1, 2, 3].length ∧
      (read_block ⟨70, [1, 2, 3]⟩ (block_number ⟨70, [1, 2, 3]⟩) index).isSome = true) ∧
    (32 < 70 → ∀ index, index ≤ 31 →
      index / 32 + 1 ≤ block_number ⟨70, [1, 2, 3]⟩ ∧
      block_number ⟨70, [1, 2, 3]⟩ - index / 32 - 1 < [1, 2, 3].length ∧
      (read_block ⟨70, [1, 2, 3]⟩ (block_number ⟨70, [1, 2, 3]⟩) index).isSome = true) ∧
    (70 < 2 ^ 31 → ∀ (buffer : List Char) (buffer_size : Nat),
      buffer_size ≤ buffer.length →
      (core_to_binary_string ⟨70, [1, 2, 3]⟩ buffer buffer_size).isSome = true) :=
  block_reads_in_range ⟨70, [1, 2, 3]⟩ (by decide) (by decide) (by decide)

theorem digitChar_ne_space (d : Nat) (hd : d < 10) : Nat.digitChar d ≠ ' ' := by
  interval_cases d <;> decide

theorem toDigitsCore_no_space (fuel : Nat) :
    ∀ (n : Nat) (acc : List Char), (∀ c ∈ acc, c ≠ ' ') →
      ∀ c ∈ Nat.toDigitsCore 10 fuel n acc, c ≠ ' ' := by
  induction fuel with
  | zero => intro n acc hacc c hc; exact hacc c (by simpa [Nat.toDigitsCore] using hc)
  | succ fuel ih =>
    intro n acc hacc c hc
    have hcons : ∀ d ∈ Nat.digitChar (n % 10) :: acc, d ≠ ' ' := by
      intro d hd
      rcases List.mem_cons.mp hd with rfl | hd
      · exact digitChar_ne_space _ (Nat.mod_lt _ (by decide))
      · exact hacc d hd
    simp only [Nat.toDigitsCore] at hc
    split at hc
    · exact hcons c hc
    · exact ih _ _ hcons c hc

theorem count_space_toDigits (n : Nat) : (Nat.toDigits 10 n).count ' ' = 0 := by
  rw [List.count_eq_zero]
  intro hmem
  exact toDigitsCore_no_space _ _ [] (fun c hc => by simp at hc) ' ' hmem rfl

theorem token_count_full (l : List core) :
    token_count (l.map (fun cr => Nat.toDigits 10 (encoded_value cr) ++ [' '])).flatten
      = l.length := by
  induction l with
  | nil => rfl
  | cons cr rest ih =>
    unfold token_count at ih ⊢
    simp only [List.map_cons, List.flatten_cons, List.count_append, List.length_cons, ih,
      count_space_toDigits]
    simp only [List.count_singleton_self, Nat.zero_add]
    omega

theorem scratch_return_nonneg (cr : core) (buffer : List Char) (ret : Int) (buf : List Char)
    (h : core_to_binary_string cr buffer 33 = some (ret, buf)) : 0 ≤ ret := by
  unfold core_to_binary_string at h
  by_cases hsmall : 33 < (cr.bit_size + 1) % 2 ^ 32
  · rw [if_pos hsmall] at h
    by_cases hlow : 33 ≤ 33 ∧ 32 < cr.bit_size
    · rw [if_pos hlow] at h
      have := (bind_terminate_some cr _ 32 buffer ret buf h).1
      omega
    · have hle : (cr.bit_size + 1) % 2 ^ 32 ≤ cr.bit_size + 1 := Nat.mod_le _ _
      omega
  · rw [if_neg hsmall] at h
    have := (bind_terminate_some cr _ _ buffer ret buf h).1
    omega

/-- Claim C12 fails: when the output file opens and the allocation of the
scratch buffer fails, no token is written for an LPS of two cores. -/
theorem allocation_failure_no_token :
    convert_lps_cores_to_integers_file
        (sample_env [] (fun _ => true) (fun k => decide (k ≠ 2)) [])
        [⟨3, [5]⟩, ⟨40, [1, 7]⟩] ['o'] = some ⟨1, true, [], []⟩
    ∧ token_count [] ≠ [(⟨3, [5]⟩ : core), ⟨40, [1, 7]⟩].length := by
  decide

/-- Claim C12, amended: the scratch buffer has 33 cells; for that size
`core_to_binary_string` never returns a negative length, whatever the core,
and it does return on every well-formed core of the LPS (bit size 0
included); so for every LPS of well-formed cores (each with
`ceil(bit_size / 32)` blocks and a bit size that is a value of its 32-bit
field), when the output file opens and the scratch buffer is allocated, no
core is skipped and the number of tokens written is the number of cores of
the LPS. -/
theorem every_core_yields_token (env : Env) (lps_ptr : lps) (filename : List Char)
    (hopen : env.writable filename = true) (hmalloc : env.malloc_ok 2 = true)
    (hwf : ∀ cr ∈ lps_ptr,
      cr.bit_size < 2 ^ 32 ∧ cr.bit_rep.length = (cr.bit_size + 31) / 32) :
    (fresh env 33).length = 33 ∧
    (∀ (cr : core) (buffer : List Char) (ret : Int) (buf : List Char),
      core_to_binary_string cr buffer 33 = some (ret, buf) → 0 ≤ ret) ∧
    (∀ cr ∈ lps_ptr, ∀ buffer : List Char, buffer.length = 33 →
      ∃ ret buf, core_to_binary_string cr buffer 33 = some (ret, buf) ∧ 0 ≤ ret) ∧
    ∃ r, convert_lps_cores_to_integers_file env lps_ptr filename = some r ∧
      r.ret = 0 ∧ r.skipped = [] ∧ token_count r.written = lps_ptr.length := by
  refine ⟨fresh_length env 33, scratch_return_nonneg, ?_, ?_⟩
  · intro cr hcr buffer hb
    obtain ⟨hsz, hlen⟩ := hwf cr hcr
    obtain ⟨n, s, post, h1, _, _, _⟩ := scratch_full cr buffer hb hsz hlen
    exact ⟨_, _, h1, by omega⟩
  · refine ⟨_, convert_full env lps_ptr filename hopen hmalloc hwf, rfl, rfl, ?_⟩
    exact token_count_full lps_ptr

theorem every_core_yields_token_witness :
    (fresh (sample_env [] (fun _ => true) (fun _ => true) []) 33).length = 33 ∧
    (∀ (cr : core) (buffer : List Char) (ret : Int) (buf : List Char),
      core_to_binary_string cr buffer 33 = some (ret, buf) → 0 ≤ ret) ∧
    (∀ cr ∈ [(⟨0, []⟩ : core), ⟨3, [5]⟩, ⟨40, [1, 7]⟩], ∀ buffer : List Char,
      buffer.length = 33 →
      ∃ ret buf, core_to_binary_string cr buffer 33 = some (ret, buf) ∧ 0 ≤ ret) ∧
    ∃ r, convert_lps_cores_to_integers_file (sample_env [] (fun _ => true) (fun _ => true) [])
        [⟨0, []⟩, ⟨3, [5]⟩, ⟨40, [1, 7]⟩] ['o'] = some r ∧
      r.ret = 0 ∧ r.skipped = [] ∧
      token_count r.written = [(⟨0, []⟩ : core), ⟨3, [5]⟩, ⟨40, [1, 7]⟩].length :=
  every_core_yields_token (sample_env [] (fun _ => true) (fun _ => true) [])
    [⟨0, []⟩, ⟨3, [5]⟩, ⟨40, [1, 7]⟩] ['o'] rfl rfl (by decide)

end RiLcp
